import Mathlib

/-!
# Order matching system: a shallow embedding

The Go program keeps its order book in two SQL tables (`orders`, `trades`) and
matches an incoming order against the open orders of the opposite side inside
one database transaction.  This file embeds

* `internal/models`   : `Order`, `Trade`, `PlaceOrderRequest`, `OrderBookEntry`, `OrderBook`;
* `internal/database` : the order, trade and order book repositories, as functions on a
  value `DB` holding the two tables;
* `internal/service`  : `MatchingEngine.ProcessOrder` and its helpers;
* `internal/api`      : the handlers `PlaceOrder` and `CancelOrder`;
* the mutex `orderBookMu` and the goroutines of concurrent requests, as a step function
  on a `System`.

Next to the loop of `ProcessOrder` (`processMatches`) stands `specifiedLoop`, the
matching loop as the specification words it, for the comparison of the two.

Conventions of the embedding.

* `float64` prices and quantities of the orders are embedded as whole numbers
  (`Int`).  The program compares prices and copies them; with quantities it
  compares, takes `min` and subtracts.  On whole numbers of at most `2 ^ 53` these
  operations are exact in `float64` (`tradeQuantities_whole`).  The section
  on `float64` quantities embeds the arithmetic of the loop on all `float64`
  values, with the rounding of the subtraction.
* `models.OrderSide`, `models.OrderType` and `models.OrderStatus` are string types
  whose only values written by the program are the declared constants; they are
  embedded as enumerations.
* A database handle (`*sql.DB` or `*sql.Tx`) is the value of the tables it sees.
  `Begin` copies the committed tables into the transaction, `Commit` installs the
  transaction's tables, `Rollback` drops them.
* Every call that reaches the database may fail.  A fault schedule `Faults` says,
  for the k-th persistence call of an operation, whether it returns an error, and
  for a query after how many rows its rows break off.  No row loop of the program
  looks at `rows.Err()`, so rows that break off end the loop as the end of the
  rows does (`rowsRead`).
* `created_at` is filled by the database from its clock; the clock reading is the
  parameter `now`.  The `updated_at` column is not read by any embedded code and
  is left out.
* `ORDER BY` is a stable sort of the selected rows: rows that tie on every term
  keep their table order.
-/

namespace OrderMatching

/-! ## internal/models -/

/-- The side of an order: `OrderSideBuy`, `OrderSideSell`. -/
inductive OrderSide where
  | Buy
  | Sell
deriving DecidableEq, Repr

/-- The type of an order: `OrderTypeLimit`, `OrderTypeMarket`. -/
inductive OrderType where
  | Limit
  | Market
deriving DecidableEq, Repr

/-- The status of an order: `OrderStatusOpen`, `OrderStatusFilled`, `OrderStatusCanceled`. -/
inductive OrderStatus where
  | Open
  | Filled
  | Canceled
deriving DecidableEq, Repr

/-- Struct `models.Order` (the field `Type` is spelled `Typ`). -/
structure Order where
  ID : Nat
  Symbol : String
  Side : OrderSide
  Typ : OrderType
  Price : Int
  InitialQuantity : Int
  RemainingQuantity : Int
  Status : OrderStatus
  CreatedAt : Nat
deriving DecidableEq, Repr

/-- Struct `models.Trade`. -/
structure Trade where
  ID : Nat
  Symbol : String
  BuyOrderID : Nat
  SellOrderID : Nat
  Price : Int
  Quantity : Int
  CreatedAt : Nat
deriving DecidableEq, Repr

/-- Struct `models.PlaceOrderRequest`, as decoded from JSON: side and type are
still raw strings, an absent field holds the zero value. -/
structure PlaceOrderRequest where
  Symbol : String
  Side : String
  Typ : String
  Price : Int
  Quantity : Int
deriving DecidableEq, Repr

/-- Struct `models.OrderBookEntry`. -/
structure OrderBookEntry where
  Price : Int
  Quantity : Int
  Orders : Nat
deriving DecidableEq, Repr

/-- Struct `models.OrderBook`. -/
structure OrderBook where
  Symbol : String
  Bids : List OrderBookEntry
  Asks : List OrderBookEntry
deriving DecidableEq, Repr

/-! ## internal/database -/

/-- The tables seen through a database handle, with the two auto-increment counters. -/
structure DB where
  orders : List Order
  trades : List Trade
  nextOrderID : Nat
  nextTradeID : Nat
deriving DecidableEq, Repr

/-- A fault schedule of an operation, by the number of the persistence call.
`fails k`: the k-th call returns an error.  `stops k`: the k-th call is a query
whose rows break off after that many rows; `rows.Next()` then returns false as
at the end of the rows, and only `rows.Err()` would tell the two apart. -/
structure Faults where
  fails : Nat → Bool
  stops : Nat → Option Nat

instance : CoeFun Faults (fun _ => Nat → Bool) := ⟨Faults.fails⟩

/-- The schedule without faults. -/
def noFaults : Faults := ⟨fun _ => false, fun _ => none⟩

/-- A row loop `for rows.Next() { ... append ... }` that is not followed by a check
of `rows.Err()`, as all row loops of the program: it collects every row of the
query, or, when the rows break off after `n` rows, the first `n` of them, and
reports no error in either case. -/
def rowsRead {α : Type} (stop : Option Nat) (rows : List α) : List α :=
  match stop with
  | none => rows
  | some n => rows.take n

/-- The errors `ProcessOrder` wraps and returns, one per failing call. -/
inductive ProcessError where
  | beginTransaction
  | createOrder
  | getMatchingOrders
  | createTrade
  | updateMatchedOrder
  | updateOrderStatus
  | commitTransaction
deriving DecidableEq, Repr

/-- The errors of `OrderRepository.CancelOrder`. -/
inductive CancelError where
  | execFailed
  | notFoundOrResolved
deriving DecidableEq, Repr

namespace OrderRepository

/-- Method `OrderRepository.CreateOrder`: insert the row, the id comes from the counter
and `created_at` from the clock; the caller's order receives the id. -/
def CreateOrder (db : DB) (now : Nat) (order : Order) : DB × Order :=
  let id := db.nextOrderID
  ({ db with
      orders := db.orders ++ [{ order with ID := id, CreatedAt := now }],
      nextOrderID := id + 1 },
   { order with ID := id })

/-- Method `OrderRepository.UpdateOrderStatus`:
`UPDATE orders SET status = ?, remaining_quantity = ? WHERE id = ?`. -/
def UpdateOrderStatus (db : DB) (id : Nat) (status : OrderStatus) (remainingQuantity : Int) : DB :=
  { db with
      orders := db.orders.map fun o =>
        if o.ID = id then { o with Status := status, RemainingQuantity := remainingQuantity } else o }

/-- Method `OrderRepository.CancelOrder`:
`UPDATE orders SET status = 'canceled' WHERE id = ? AND status = 'open'`, an error
when the statement fails or touches no row.  The tables after the call are
returned in both cases. -/
def CancelOrder (db : DB) (fail : Bool) (id : Nat) : DB × Except CancelError Unit :=
  if fail then (db, .error .execFailed) else
  let hit : Order → Bool := fun o => decide (o.ID = id) && decide (o.Status = .Open)
  let db1 : DB :=
    { db with orders := db.orders.map fun o => if hit o then { o with Status := .Canceled } else o }
  let rowsAffected := (db.orders.filter hit).length
  if rowsAffected = 0 then (db1, .error .notFoundOrResolved) else (db1, .ok ())

/-- Method `OrderRepository.GetOrderByID`: the row with this id, if any. -/
def GetOrderByID (db : DB) (id : Nat) : Option Order :=
  db.orders.find? fun o => decide (o.ID = id)

end OrderRepository

namespace TradeRepository

/-- Method `TradeRepository.CreateTrade`: insert the row, the id comes from the counter. -/
def CreateTrade (db : DB) (now : Nat) (trade : Trade) : DB × Trade :=
  let id := db.nextTradeID
  ({ db with
      trades := db.trades ++ [{ trade with ID := id, CreatedAt := now }],
      nextTradeID := id + 1 },
   { trade with ID := id })

end TradeRepository

namespace OrderBookRepository

/-- The rows one depth query of `GetOrderBook` aggregates:
`WHERE symbol = ? AND side = ? AND status = 'open' AND type = 'limit'`. -/
def levelRows (db : DB) (symbol : String) (side : OrderSide) : List Order :=
  db.orders.filter fun o =>
    decide (o.Symbol = symbol) && decide (o.Side = side) && decide (o.Status = .Open) &&
      decide (o.Typ = .Limit)

/-- The group of one price under `GROUP BY price`:
`SELECT price, SUM(remaining_quantity), COUNT(*)`. -/
def levelEntry (rows : List Order) (price : Int) : OrderBookEntry :=
  let group := rows.filter fun o => decide (o.Price = price)
  { Price := price
    Quantity := (group.map fun o => o.RemainingQuantity).sum
    Orders := group.length }

/-- The groups of a depth query before `ORDER BY`: one per distinct price. -/
def priceLevels (db : DB) (symbol : String) (side : OrderSide) : List OrderBookEntry :=
  let rows := levelRows db symbol side
  (rows.map fun o => o.Price).dedup.map (levelEntry rows)

/-- Entry `a` may stand before entry `b` under `ORDER BY price DESC`. -/
def priceDesc (a b : OrderBookEntry) : Prop :=
  b.Price ≤ a.Price

/-- Entry `a` may stand before entry `b` under `ORDER BY price ASC`. -/
def priceAsc (a b : OrderBookEntry) : Prop :=
  a.Price ≤ b.Price

instance : DecidableRel priceDesc := fun a b => by
  unfold priceDesc; exact inferInstance

instance : DecidableRel priceAsc := fun a b => by
  unfold priceAsc; exact inferInstance

instance : IsTotal OrderBookEntry priceDesc :=
  ⟨fun a b => by unfold priceDesc; omega⟩

instance : IsTrans OrderBookEntry priceDesc :=
  ⟨fun a b c h1 h2 => by unfold priceDesc at *; omega⟩

instance : IsTotal OrderBookEntry priceAsc :=
  ⟨fun a b => by unfold priceAsc; omega⟩

instance : IsTrans OrderBookEntry priceAsc :=
  ⟨fun a b c h1 h2 => by unfold priceAsc at *; omega⟩

/-- The query `bidsQuery`: `ORDER BY price DESC LIMIT 50`. -/
def bidsQuery (db : DB) (symbol : String) : List OrderBookEntry :=
  ((priceLevels db symbol .Buy).insertionSort priceDesc).take 50

/-- The query `asksQuery`: `ORDER BY price ASC LIMIT 50`. -/
def asksQuery (db : DB) (symbol : String) : List OrderBookEntry :=
  ((priceLevels db symbol .Sell).insertionSort priceAsc).take 50

/-- The errors of `GetOrderBook`. -/
inductive DepthError where
  | getBids
  | getAsks
deriving DecidableEq, Repr

/-- Method `OrderBookRepository.GetOrderBook`: call 0 is the query for the bids, call 1 the
query for the asks.  A call that fails (the query, or the scan of a row) gives
the error; the entries come from the two row loops, which do not check
`rows.Err()`. -/
def GetOrderBook (db : DB) (f : Faults) (symbol : String) : Except DepthError OrderBook :=
  if f 0 then .error .getBids
  else
    let bids := rowsRead (f.stops 0) (bidsQuery db symbol)
    if f 1 then .error .getAsks
    else .ok { Symbol := symbol, Bids := bids, Asks := rowsRead (f.stops 1) (asksQuery db symbol) }

end OrderBookRepository

/-! ## internal/service -/

namespace MatchingEngine

/-- The first `ORDER BY` term of the query for sell orders:
`CASE WHEN type = 'market' THEN 0 ELSE price END` (ascending). -/
def askKey (o : Order) : Int :=
  if o.Typ = .Market then 0 else o.Price

/-- The first `ORDER BY` term of the query for buy orders:
`CASE WHEN type = 'market' THEN 999999999 ELSE price END` (descending). -/
def bidKey (o : Order) : Int :=
  if o.Typ = .Market then 999999999 else o.Price

/-- Row `a` may stand before row `b` under `ORDER BY askKey ASC, created_at ASC`. -/
def askBefore (a b : Order) : Prop :=
  askKey a < askKey b ∨ (askKey a = askKey b ∧ a.CreatedAt ≤ b.CreatedAt)

/-- Row `a` may stand before row `b` under `ORDER BY bidKey DESC, created_at ASC`. -/
def bidBefore (a b : Order) : Prop :=
  bidKey b < bidKey a ∨ (bidKey a = bidKey b ∧ a.CreatedAt ≤ b.CreatedAt)

instance : DecidableRel askBefore := fun a b => by
  unfold askBefore; exact inferInstance

instance : DecidableRel bidBefore := fun a b => by
  unfold bidBefore; exact inferInstance

instance : IsTotal Order askBefore :=
  ⟨fun a b => by unfold askBefore; omega⟩

instance : IsTrans Order askBefore :=
  ⟨fun a b c h1 h2 => by unfold askBefore at *; omega⟩

instance : IsTotal Order bidBefore :=
  ⟨fun a b => by unfold bidBefore; omega⟩

instance : IsTrans Order bidBefore :=
  ⟨fun a b c h1 h2 => by unfold bidBefore at *; omega⟩

/-- Method `MatchingEngine.getMatchingOrders`, the rows of its query: the open orders of
the opposite side of the symbol, in the order of the query.  Rows that tie on
both `ORDER BY` terms keep their table order.  The row loop of the method
collects these rows as `rowsRead` says; it is applied where `ProcessOrder` calls
the method, with the fault schedule of the call. -/
def getMatchingOrders (tx : DB) (symbol : String) (side : OrderSide) : List Order :=
  if side = .Buy then
    (tx.orders.filter fun o =>
      decide (o.Symbol = symbol) && decide (o.Side = .Sell) && decide (o.Status = .Open)).insertionSort
      askBefore
  else
    (tx.orders.filter fun o =>
      decide (o.Symbol = symbol) && decide (o.Side = .Buy) && decide (o.Status = .Open)).insertionSort
      bidBefore

/-- Method `MatchingEngine.canMatch`. -/
def canMatch (incoming resting : Order) : Bool :=
  if incoming.Typ = .Market ∨ resting.Typ = .Market then true
  else if incoming.Side = .Buy then decide (incoming.Price ≥ resting.Price)
  else decide (incoming.Price ≤ resting.Price)

/-- Method `MatchingEngine.determineTradePrice`. -/
def determineTradePrice (incoming resting : Order) : Int :=
  if resting.Typ = .Limit then resting.Price else incoming.Price

/-- The package function `min` of `matching_engine.go`. -/
def min (a b : Int) : Int :=
  if a < b then a else b

/-- The trade record built in the loop body of `ProcessOrder` (before it is saved). -/
def newTrade (order matchOrder : Order) : Trade :=
  let tradePrice := determineTradePrice order matchOrder
  let tradeQuantity := MatchingEngine.min order.RemainingQuantity matchOrder.RemainingQuantity
  { ID := 0
    Symbol := order.Symbol
    BuyOrderID := if order.Side = .Buy then order.ID else matchOrder.ID
    SellOrderID := if order.Side = .Buy then matchOrder.ID else order.ID
    Price := tradePrice
    Quantity := tradeQuantity
    CreatedAt := 0 }

/-- The loop `for _, matchOrder := range matchingOrders` of `ProcessOrder`.
`k` numbers the next persistence call, `tx` is the transaction, `order` the
incoming order.  The result is the call counter, the transaction and the incoming
order after the loop, or the error of the call that failed. -/
def processMatches (f : Faults) (now : Nat) :
    Nat → DB → Order → List Order → Except ProcessError (Nat × DB × Order)
  | k, tx, order, [] => .ok (k, tx, order)
  | k, tx, order, matchOrder :: rest =>
    if order.RemainingQuantity ≤ 0 then .ok (k, tx, order)
    else if !canMatch order matchOrder then processMatches f now k tx order rest
    else
      let trade := newTrade order matchOrder
      if f k then .error .createTrade
      else
        let tx1 := (TradeRepository.CreateTrade tx now trade).1
        let order1 := { order with RemainingQuantity := order.RemainingQuantity - trade.Quantity }
        let matchRemaining := matchOrder.RemainingQuantity - trade.Quantity
        let matchStatus := if matchRemaining = 0 then OrderStatus.Filled else OrderStatus.Open
        if f (k + 1) then .error .updateMatchedOrder
        else
          let tx2 := OrderRepository.UpdateOrderStatus tx1 matchOrder.ID matchStatus matchRemaining
          processMatches f now (k + 2) tx2 order1 rest

/-- The status and remaining quantity `ProcessOrder` gives the incoming order after the loop. -/
def finalState (order : Order) : OrderStatus × Int :=
  if order.RemainingQuantity = 0 then (.Filled, order.RemainingQuantity)
  else if order.Typ = .Market ∧ order.RemainingQuantity < order.InitialQuantity then (.Canceled, 0)
  else if order.Typ = .Market then (.Canceled, 0)
  else (.Open, order.RemainingQuantity)

/-- Method `MatchingEngine.ProcessOrder`.  Call 0 is `Begin`, call 1 `CreateOrder`, call 2
the query of `getMatchingOrders`, then two calls per trade, the update of the
incoming order and `Commit`.  When call 2 returns an error (the query, or the
scan of a row) so does `ProcessOrder`; when its rows break off, the row loop of
`getMatchingOrders` returns the rows collected so far and no error, and the
matching loop runs over them.  The first component is the committed database
after the call, the second the error or the caller's order as the call leaves
it. -/
def ProcessOrder (db : DB) (f : Faults) (now : Nat) (order : Order) :
    DB × Except ProcessError Order :=
  if f 0 then (db, .error .beginTransaction)
  else
    let tx := db
    let order := { order with Status := .Open, RemainingQuantity := order.InitialQuantity }
    if f 1 then (db, .error .createOrder)
    else
      let (tx, order) := OrderRepository.CreateOrder tx now order
      if f 2 then (db, .error .getMatchingOrders)
      else
        let matchingOrders := rowsRead (f.stops 2) (getMatchingOrders tx order.Symbol order.Side)
        match processMatches f now 3 tx order matchingOrders with
        | .error e => (db, .error e)
        | .ok (k, tx, order) =>
          let (finalStatus, remaining) := finalState order
          let order := { order with RemainingQuantity := remaining }
          if f k then (db, .error .updateOrderStatus)
          else
            let tx := OrderRepository.UpdateOrderStatus tx order.ID finalStatus order.RemainingQuantity
            if f (k + 1) then (db, .error .commitTransaction)
            else (tx, .ok { order with Status := finalStatus })

end MatchingEngine

/-! ## internal/api -/

namespace Handler

/-- What a handler answers: the status code and, for `201 Created`, the order. -/
inductive Response where
  | ok
  | created (order : Order)
  | badRequest
  | notFound
  | internalServerError
deriving DecidableEq, Repr

/-- The value of a `models.OrderSide` string accepted by `oneof=buy sell`. -/
def parseSide (s : String) : Option OrderSide :=
  if s = "buy" then some .Buy else if s = "sell" then some .Sell else none

/-- The value of a `models.OrderType` string accepted by `oneof=limit market`. -/
def parseType (s : String) : Option OrderType :=
  if s = "limit" then some .Limit else if s = "market" then some .Market else none

/-- The call `c.ShouldBindJSON(&req)`: the `binding` tags of `PlaceOrderRequest`.
`required` refuses the zero value, `omitempty` skips the zero value, `min=0`
refuses a negative number. -/
def shouldBindJSON (req : PlaceOrderRequest) : Option (OrderSide × OrderType) :=
  if req.Symbol = "" then none
  else
    match parseSide req.Side, parseType req.Typ with
    | some side, some typ =>
      if req.Price ≠ 0 ∧ req.Price < 0 then none
      else if req.Quantity = 0 ∨ req.Quantity < 0 then none
      else some (side, typ)
    | _, _ => none

/-- Method `Handler.PlaceOrder`.  The status of the order handed to `ProcessOrder` is the
zero value of the string type, which `ProcessOrder` overwrites at once; the
embedding writes `Open` for it. -/
def PlaceOrder (db : DB) (f : Faults) (now : Nat) (req : PlaceOrderRequest) : DB × Response :=
  match shouldBindJSON req with
  | none => (db, .badRequest)
  | some (side, typ) =>
    if typ = .Limit ∧ req.Price ≤ 0 then (db, .badRequest)
    else if req.Quantity ≤ 0 then (db, .badRequest)
    else
      let order : Order :=
        { ID := 0
          Symbol := req.Symbol
          Side := side
          Typ := typ
          Price := req.Price
          InitialQuantity := req.Quantity
          RemainingQuantity := 0
          Status := .Open
          CreatedAt := 0 }
      match MatchingEngine.ProcessOrder db f now order with
      | (db1, .error _) => (db1, .internalServerError)
      | (db1, .ok order1) => (db1, .created order1)

/-- Method `Handler.CancelOrder` for a path parameter that `strconv.Atoi` accepted. -/
def CancelOrder (db : DB) (fail : Bool) (orderID : Nat) : DB × Response :=
  match OrderRepository.CancelOrder db fail orderID with
  | (db1, .error .notFoundOrResolved) => (db1, .notFound)
  | (db1, .error .execFailed) => (db1, .internalServerError)
  | (db1, .ok _) => (db1, .ok)

end Handler

/-! ## Concurrent requests

Every request runs its handler in a goroutine of its own.  The only
synchronisation in the program is `orderBookMu`, the one mutex of the one
`MatchingEngine`: `ProcessOrder` locks it on entry and unlocks it on return;
`Handler.CancelOrder` calls the repository on the shared database handle and
never touches the mutex.  A goroutine is modelled by its call and a phase, the
scheduler by the choice of the goroutine that moves next.  The body of
`ProcessOrder` takes effect when the goroutine unlocks. -/

/-- The call a goroutine serves. -/
inductive Call where
  | processOrder (f : Faults) (now : Nat) (order : Order)
  | cancelOrder (fail : Bool) (id : Nat)

/-- Where a goroutine stands: before its call takes the first step, between
`orderBookMu.Lock()` and `orderBookMu.Unlock()`, or returned. -/
inductive Phase where
  | waiting
  | locked
  | done
deriving DecidableEq, Repr

/-- A goroutine serving one request. -/
structure Goroutine where
  call : Call
  phase : Phase

/-- The server: the database, the mutex `orderBookMu` (true when locked) and the
goroutines. -/
structure System where
  db : DB
  orderBookMu : Bool
  goroutines : List Goroutine

/-- The symbol a call works on: that of the order for `processOrder`, that of the
stored order for `cancelOrder` (none if there is no such order). -/
def Call.symbol (db : DB) : Call → Option String
  | .processOrder _ _ order => some order.Symbol
  | .cancelOrder _ id => (OrderRepository.GetOrderByID db id).map fun o => o.Symbol

/-- One move of goroutine `i`, or `none` when it cannot move: a waiting
`ProcessOrder` locks the mutex if it is free and blocks otherwise; a locked
`ProcessOrder` runs to its return and unlocks; a waiting `CancelOrder` runs its
statement, whatever the mutex. -/
def System.step (s : System) (i : Nat) : Option System :=
  match s.goroutines[i]? with
  | none => none
  | some g =>
    match g.call, g.phase with
    | .processOrder _ _ _, .waiting =>
      if s.orderBookMu then none
      else some { s with orderBookMu := true
                         goroutines := s.goroutines.set i { g with phase := .locked } }
    | .processOrder f now order, .locked =>
      some { db := (MatchingEngine.ProcessOrder s.db f now order).1
             orderBookMu := false
             goroutines := s.goroutines.set i { g with phase := .done } }
    | .cancelOrder fail id, .waiting =>
      some { s with db := (Handler.CancelOrder s.db fail id).1
                    goroutines := s.goroutines.set i { g with phase := .done } }
    | _, _ => none

/-- The server before any of the calls has started. -/
def System.initial (db : DB) (calls : List Call) : System :=
  { db := db, orderBookMu := false, goroutines := calls.map fun c => ⟨c, .waiting⟩ }

/-- The states the server reaches from `s0` under some schedule. -/
inductive System.Reaches (s0 : System) : System → Prop where
  | start : System.Reaches s0 s0
  | move (s s1 : System) (i : Nat) :
      System.Reaches s0 s → s.step i = some s1 → System.Reaches s0 s1

/-! ## float64 quantities

The quantities of `models.Order` and `models.Trade` are `float64`.  A finite
`float64` is a rational number, and an operation of `float64` is the exact
operation followed by the rounding of IEEE 754 binary64: 53 significant bits, to
the nearest, ties to the even significand.  The bounds of the exponent are left
out (no overflow, no subnormal numbers). -/

namespace Float64

/-- The natural number nearest to `n / d`, the even one of two equally near. -/
def nearestEven (n d : Nat) : Nat :=
  if 2 * (n % d) < d then n / d
  else if d < 2 * (n % d) then n / d + 1
  else if n / d % 2 = 0 then n / d else n / d + 1

/-- The fraction `n / d` (both positive) rounded to 53 significant bits.  With
`2 ^ e ≤ n / d < 2 ^ (e + 1)` the result is the multiple of `2 ^ (e - 52)` nearest
to `n / d`; `a - t` below is `e - 52`. -/
def roundPos (n d : Nat) : ℚ :=
  let a := n.log2
  let t := 52 + d.log2 + (if d * 2 ^ a ≤ n * 2 ^ d.log2 then 0 else 1)
  if a ≤ t then (nearestEven (n * 2 ^ (t - a)) d : ℚ) / 2 ^ (t - a)
  else (nearestEven n (d * 2 ^ (a - t)) : ℚ) * 2 ^ (a - t)

/-- The `float64` nearest to the rational number `x`. -/
def round (x : ℚ) : ℚ :=
  if x = 0 then 0
  else if x < 0 then - roundPos x.num.natAbs x.den
  else roundPos x.num.natAbs x.den

/-- The difference `a - b` of two `float64` values. -/
def sub (a b : ℚ) : ℚ :=
  round (a - b)

/-- The package function `min` of `matching_engine.go`, on `float64` values. -/
def min (a b : ℚ) : ℚ :=
  if a < b then a else b

/-- The quantities an iteration of the loop of `ProcessOrder` that trades
computes. -/
structure TradeQuantities where
  tradeQuantity : ℚ
  orderRemaining : ℚ
  matchRemaining : ℚ
deriving DecidableEq, Repr

/-- The arithmetic of an iteration of the loop of `ProcessOrder` that trades, from
the remaining quantities of the incoming order and of the matching order:
`tradeQuantity := min(order.RemainingQuantity, matchOrder.RemainingQuantity)`,
`order.RemainingQuantity -= tradeQuantity` and
`matchOrder.RemainingQuantity -= tradeQuantity`. -/
def tradeQuantities (orderRemaining matchRemaining : ℚ) : TradeQuantities :=
  let tradeQuantity := min orderRemaining matchRemaining
  ⟨tradeQuantity, sub orderRemaining tradeQuantity, sub matchRemaining tradeQuantity⟩

end Float64

/-! ## Predicates used in the statements -/

/-- An order that fails the validation of the specification: empty symbol, quantity
not positive, or a limit order whose price is not positive. -/
def InvalidOrder (o : Order) : Prop :=
  o.Symbol = "" ∨ o.InitialQuantity ≤ 0 ∨ (o.Typ = .Limit ∧ o.Price ≤ 0)

/-- A request that fails the validation of the specification. -/
def InvalidRequest (req : PlaceOrderRequest) : Prop :=
  req.Symbol = "" ∨ req.Quantity ≤ 0 ∨ (req.Typ = "limit" ∧ req.Price ≤ 0)

/-- The incoming order as `ProcessOrder` admits it: status Open, nothing filled yet. -/
def admitted (order : Order) : Order :=
  { order with Status := .Open, RemainingQuantity := order.InitialQuantity }

/-- The transaction of `ProcessOrder` when the matching loop starts: the committed
tables with the row of the incoming order. -/
def loopStart (db : DB) (now : Nat) (order : Order) : DB × Order :=
  OrderRepository.CreateOrder db now (admitted order)

/-- The resting orders the matching loop of `ProcessOrder` runs over: the rows the
row loop of `getMatchingOrders` collects from its query. -/
def passOrders (db : DB) (f : Faults) (now : Nat) (order : Order) : List Order :=
  rowsRead (f.stops 2)
    (MatchingEngine.getMatchingOrders (loopStart db now order).1 order.Symbol order.Side)

/-- The matching loop of `ProcessOrder` on the orders `getMatchingOrders` returns for
the incoming order. -/
def matchingPass (db : DB) (f : Faults) (now : Nat) (order : Order) :
    Except ProcessError (Nat × DB × Order) :=
  MatchingEngine.processMatches f now 3 (loopStart db now order).1 (loopStart db now order).2
    (passOrders db f now order)

/-- The incoming order after a trade with `matchOrder`:
`order.RemainingQuantity -= tradeQuantity`. -/
def afterTrade (order matchOrder : Order) : Order :=
  { order with
      RemainingQuantity :=
        order.RemainingQuantity - (MatchingEngine.newTrade order matchOrder).Quantity }

/-- One executed iteration of the matching loop against `matchOrder`: the trade is
saved, both remaining quantities are reduced, the matched row is updated. -/
def matchStep (now : Nat) (tx : DB) (order matchOrder : Order) : DB × Order :=
  let trade := MatchingEngine.newTrade order matchOrder
  let matchRemaining := matchOrder.RemainingQuantity - trade.Quantity
  (OrderRepository.UpdateOrderStatus (TradeRepository.CreateTrade tx now trade).1 matchOrder.ID
      (if matchRemaining = 0 then OrderStatus.Filled else OrderStatus.Open) matchRemaining,
    afterTrade order matchOrder)

/-- The iterations of the matching loop that reach the trade, in order: each with
the incoming order as it stands before the trade and the matching order. -/
def executed (order : Order) : List Order → List (Order × Order)
  | [] => []
  | m :: rest =>
    if order.RemainingQuantity ≤ 0 then []
    else if !MatchingEngine.canMatch order m then executed order rest
    else (order, m) :: executed (afterTrade order m) rest

/-- Trade row `t` is the trade the loop builds for the iteration `p`, with the id
and the creation time the database gave it. -/
def IsTradeOf (t : Trade) (p : Order × Order) : Prop :=
  { t with ID := 0, CreatedAt := 0 } = MatchingEngine.newTrade p.1 p.2

/-- The id of the resting order in a trade made for an incoming order of `side`. -/
def restingOrderID (side : OrderSide) (t : Trade) : Nat :=
  if side = .Buy then t.SellOrderID else t.BuyOrderID

/-- The id of the incoming order in a trade made for an incoming order of `side`. -/
def incomingOrderID (side : OrderSide) (t : Trade) : Nat :=
  if side = .Buy then t.BuyOrderID else t.SellOrderID

/-- The orders an incoming order of `side` on `symbol` can be matched with: the open
orders of the symbol on the opposite side. -/
def IsCandidate (symbol : String) (side : OrderSide) (r : Order) : Prop :=
  r.Symbol = symbol ∧ r.Side ≠ side ∧ r.Status = .Open

/-- Every open order of the database is a limit order. -/
def OpenOrdersAreLimit (db : DB) : Prop :=
  ∀ r ∈ db.orders, r.Status = .Open → r.Typ = .Limit

/-- The number of persistence calls of a `ProcessOrder` that meets no fault:
`Begin`, `CreateOrder`, the query, two writes per executed iteration, the update
of the incoming order and `Commit`.  A fault schedule is read below this bound. -/
def persistenceCalls (db : DB) (f : Faults) (now : Nat) (order : Order) : Nat :=
  5 + 2 * (executed (loopStart db now order).2 (passOrders db f now order)).length

/-- The database without the rows of the order `id`. -/
def withoutOrder (db : DB) (id : Nat) : DB :=
  { db with orders := db.orders.filter fun o => decide (o.ID ≠ id) }

/-- The primary key of the order table: no two rows share an id, and every id is
below the auto-increment counter. -/
def UniqueIDs (db : DB) : Prop :=
  (db.orders.map fun o => o.ID).Nodup ∧ ∀ o ∈ db.orders, o.ID < db.nextOrderID

/-- The sum of the quantities of the trades whose buy or sell order is `id`. -/
def tradedQuantity (trades : List Trade) (id : Nat) : Int :=
  ((trades.filter fun t => decide (t.BuyOrderID = id ∨ t.SellOrderID = id)).map
    fun t => t.Quantity).sum

/-- Conservation for one order row: initial = remaining + traded. -/
def Conserved (db : DB) (o : Order) : Prop :=
  o.InitialQuantity = o.RemainingQuantity + tradedQuantity db.trades o.ID

/-- The databases reached from the empty one by calls of `ProcessOrder` (with any
order and any fault schedule; a failed call changes nothing) and of
`CancelOrder`. -/
inductive Reachable : DB → Prop where
  | empty (n m : Nat) : Reachable ⟨[], [], n, m⟩
  | processOrder (db : DB) (f : Faults) (now : Nat) (order : Order) :
      Reachable db → Reachable (MatchingEngine.ProcessOrder db f now order).1
  | cancelOrder (db : DB) (fail : Bool) (id : Nat) :
      Reachable db → Reachable (Handler.CancelOrder db fail id).1

/-- The databases reached from the empty one by calls of `ProcessOrder` with orders
whose quantity is a whole number from 1 to `2 ^ 53` (with any fault schedule; a
failed call changes nothing) and of `CancelOrder`. -/
inductive ReachableWhole : DB → Prop where
  | empty (n m : Nat) : ReachableWhole ⟨[], [], n, m⟩
  | processOrder (db : DB) (f : Faults) (now : Nat) (order : Order) :
      0 < order.InitialQuantity → order.InitialQuantity ≤ 2 ^ 53 →
      ReachableWhole db → ReachableWhole (MatchingEngine.ProcessOrder db f now order).1
  | cancelOrder (db : DB) (fail : Bool) (id : Nat) :
      ReachableWhole db → ReachableWhole (Handler.CancelOrder db fail id).1

/-- Every stored quantity is in the range in which `float64` is exact: the
remaining quantity of a row is between 0 and its initial quantity, which is at
most `2 ^ 53`. -/
def QuantitiesInRange (db : DB) : Prop :=
  ∀ o ∈ db.orders, 0 ≤ o.RemainingQuantity ∧ o.RemainingQuantity ≤ o.InitialQuantity ∧
    o.InitialQuantity ≤ 2 ^ 53

/-- The invariant behind conservation: ids are a primary key, trades refer to ids
below the order counter, and every order row that is not a canceled market order
is conserved. -/
def ConservationInvariant (db : DB) : Prop :=
  UniqueIDs db ∧
  (∀ t ∈ db.trades, t.BuyOrderID < db.nextOrderID ∧ t.SellOrderID < db.nextOrderID) ∧
  ∀ o ∈ db.orders, ¬ (o.Typ = .Market ∧ o.Status = .Canceled) → Conserved db o

/-- The rows of the order table stand in the order of their ids, the order in
which they were inserted. -/
def StoredInOrder (db : DB) : Prop :=
  db.orders.Pairwise fun a b => a.ID < b.ID

/-- The `ORDER BY` relation of the query `getMatchingOrders` runs for an incoming
order of `side`. -/
def queryBefore (side : OrderSide) (a b : Order) : Prop :=
  if side = .Buy then MatchingEngine.askBefore a b else MatchingEngine.bidBefore a b

/-- A book with two asks of 5 at 100. -/
def twoAsks : DB :=
  ⟨[⟨1, "X", .Sell, .Limit, 100, 5, 5, .Open, 1⟩, ⟨2, "X", .Sell, .Limit, 100, 5, 5, .Open, 2⟩],
    [], 3, 1⟩

/-- The fault schedule in which no call returns an error and the rows of the query
of call `k` break off after `n` rows: the server ends the result set with an
error after row `n`, as when the statement is interrupted or runs out of time,
and `rows.Next()` returns false.  The connection stays in use. -/
def brokenRead (k n : Nat) : Faults :=
  ⟨fun _ => false, fun i => if i = k then some n else none⟩

/-- The price level `price` of a side of a symbol: its Open limit orders at that price. -/
def levelOrders (db : DB) (symbol : String) (side : OrderSide) (price : Int) : List Order :=
  db.orders.filter fun o =>
    decide (o.Symbol = symbol ∧ o.Side = side ∧ o.Status = .Open ∧ o.Typ = .Limit ∧
      o.Price = price)

/-- The list `es` is the depth of a side of a symbol, best level first under
`better`, cut to the `n` best levels: prices strictly ordered (so one entry per
level), at most `n` entries, every entry a non-empty price level with the sum of
the remaining quantities and the number of its orders, and every price level
either listed or worse than `n` listed ones. -/
def IsDepthOf (db : DB) (symbol : String) (side : OrderSide) (better : Int → Int → Prop)
    (n : Nat) (es : List OrderBookEntry) : Prop :=
  es.Pairwise (fun a b => better a.Price b.Price) ∧
  es.length ≤ n ∧
  (∀ e ∈ es, levelOrders db symbol side e.Price ≠ [] ∧
    e.Quantity = ((levelOrders db symbol side e.Price).map fun o => o.RemainingQuantity).sum ∧
    e.Orders = (levelOrders db symbol side e.Price).length) ∧
  (∀ o ∈ db.orders, o.Symbol = symbol → o.Side = side → o.Status = .Open → o.Typ = .Limit →
    (∃ e ∈ es, e.Price = o.Price) ∨ (es.length = n ∧ ∀ e ∈ es, better e.Price o.Price))

/-- An example database for the depth snapshot: the state after scenario B with one
more bid at 101, a higher bid at 102, a market order left Open, a canceled bid
and a bid on another symbol. -/
def depthExample : DB :=
  ⟨[⟨1, "X", .Sell, .Limit, 100, 5, 0, .Filled, 3⟩, ⟨2, "X", .Buy, .Limit, 101, 8, 3, .Open, 7⟩,
      ⟨3, "X", .Buy, .Limit, 101, 4, 4, .Open, 8⟩, ⟨4, "X", .Buy, .Limit, 102, 1, 1, .Open, 9⟩,
      ⟨5, "X", .Buy, .Market, 0, 6, 6, .Open, 9⟩, ⟨6, "X", .Buy, .Limit, 103, 2, 2, .Canceled, 9⟩,
      ⟨7, "Y", .Buy, .Limit, 104, 2, 2, .Open, 9⟩],
    [⟨1, "X", 2, 1, 100, 5, 7⟩], 8, 2⟩

/-- The mutex invariant: a goroutine between `Lock` and `Unlock` means the mutex is
locked, and there is at most one such goroutine. -/
def MutexInvariant (s : System) : Prop :=
  (∀ (j : Nat) (g : Goroutine), s.goroutines[j]? = some g → g.phase = .locked →
    s.orderBookMu = true) ∧
  (∀ (j k : Nat) (gj gk : Goroutine), s.goroutines[j]? = some gj → s.goroutines[k]? = some gk →
    gj.phase = .locked → gk.phase = .locked → j = k)

/-- Two calls of `ProcessOrder` on different symbols, and a database with one
resting ask on "X". -/
def twoSymbols : System :=
  System.initial ⟨[⟨1, "X", .Sell, .Limit, 100, 5, 5, .Open, 3⟩], [], 2, 1⟩
    [.processOrder noFaults 7 ⟨0, "X", .Buy, .Limit, 100, 5, 0, .Open, 0⟩,
      .processOrder noFaults 8 ⟨0, "Y", .Buy, .Limit, 100, 5, 0, .Open, 0⟩]

/-- The state `twoSymbols` after the first call has locked the mutex. -/
def twoSymbolsLocked : System :=
  { db := ⟨[⟨1, "X", .Sell, .Limit, 100, 5, 5, .Open, 3⟩], [], 2, 1⟩
    orderBookMu := true
    goroutines :=
      [⟨.processOrder noFaults 7 ⟨0, "X", .Buy, .Limit, 100, 5, 0, .Open, 0⟩, .locked⟩,
        ⟨.processOrder noFaults 8 ⟨0, "Y", .Buy, .Limit, 100, 5, 0, .Open, 0⟩, .waiting⟩] }

/-- A call of `ProcessOrder` on "X" and a call of `CancelOrder` for the resting
order 1, which is on "X". -/
def passAndCancel : System :=
  System.initial ⟨[⟨1, "X", .Sell, .Limit, 100, 5, 5, .Open, 3⟩], [], 2, 1⟩
    [.processOrder noFaults 7 ⟨0, "X", .Buy, .Limit, 100, 5, 0, .Open, 0⟩, .cancelOrder false 1]

/-- The state `passAndCancel` after the call of `ProcessOrder` has locked the mutex. -/
def passAndCancelLocked : System :=
  { db := ⟨[⟨1, "X", .Sell, .Limit, 100, 5, 5, .Open, 3⟩], [], 2, 1⟩
    orderBookMu := true
    goroutines :=
      [⟨.processOrder noFaults 7 ⟨0, "X", .Buy, .Limit, 100, 5, 0, .Open, 0⟩, .locked⟩,
        ⟨.cancelOrder false 1, .waiting⟩] }

/-- The eligibility test in the words of the specification (4.2, step 2b):
eligible if the incoming order is a market order, or the resting order is, or
the incoming order buys at a price not below the resting price, or sells at a
price not above it. -/
def eligible (incoming resting : Order) : Bool :=
  decide (incoming.Typ = .Market ∨ resting.Typ = .Market ∨
    (incoming.Side = .Buy ∧ incoming.Price ≥ resting.Price) ∨
    (incoming.Side = .Sell ∧ incoming.Price ≤ resting.Price))

/-- The matching loop in the words of the specification (4.2, step 2), on the side
of the book opposite to the incoming order, best resting order first: while the
incoming order has something left and the side is not empty, take the best
resting order; if it is not eligible, terminate at once; else trade
`min (incoming remaining) (resting remaining)` at the resting price, reduce both
remaining quantities, and mark the resting order Filled when nothing is left of
it, Open otherwise.  The trade and the resting order are written through the
same two persistence calls as in `processMatches`, so that the two loops can
be compared on tables, call counters and errors. -/
def specifiedLoop (f : Faults) (now : Nat) :
    Nat → DB → Order → List Order → Except ProcessError (Nat × DB × Order)
  | k, tx, incoming, [] => .ok (k, tx, incoming)
  | k, tx, incoming, resting :: book =>
    if 0 < incoming.RemainingQuantity then
      if eligible incoming resting then
        let tradeQuantity := Min.min incoming.RemainingQuantity resting.RemainingQuantity
        let trade : Trade :=
          { ID := 0
            Symbol := incoming.Symbol
            BuyOrderID := if incoming.Side = .Buy then incoming.ID else resting.ID
            SellOrderID := if incoming.Side = .Buy then resting.ID else incoming.ID
            Price := resting.Price
            Quantity := tradeQuantity
            CreatedAt := 0 }
        if f k then .error .createTrade
        else
          let tx1 := (TradeRepository.CreateTrade tx now trade).1
          let restingRemaining := resting.RemainingQuantity - tradeQuantity
          let restingStatus :=
            if restingRemaining = 0 then OrderStatus.Filled else OrderStatus.Open
          if f (k + 1) then .error .updateMatchedOrder
          else
            specifiedLoop f now (k + 2)
              (OrderRepository.UpdateOrderStatus tx1 resting.ID restingStatus restingRemaining)
              { incoming with RemainingQuantity := incoming.RemainingQuantity - tradeQuantity }
              book
      else .ok (k, tx, incoming)
    else .ok (k, tx, incoming)

/-- An example for the two loops: three asks at 99, 101 and 102. -/
def threeAsks : List Order :=
  [⟨1, "X", .Sell, .Limit, 99, 3, 3, .Open, 1⟩, ⟨2, "X", .Sell, .Limit, 101, 5, 5, .Open, 2⟩,
    ⟨3, "X", .Sell, .Limit, 102, 1, 1, .Open, 3⟩]

/-- An example for the two loops: the transaction of a limit buy order of 10 at 100
(order 4) against `threeAsks`. -/
def threeAsksTx : DB :=
  ⟨threeAsks ++ [⟨4, "X", .Buy, .Limit, 100, 10, 10, .Open, 7⟩], [], 5, 1⟩

/-! ## Validation (C1) -/

open MatchingEngine

/-- C1, counterexample.  `ProcessOrder` does not validate: called with a limit order
that has an empty symbol, quantity 0 and price 0 it returns no error, and the
order row has been created (with status Filled). -/
theorem ProcessOrder_accepts_invalid_order :
    InvalidOrder ⟨0, "", .Buy, .Limit, 0, 0, 0, .Open, 0⟩ ∧
    ProcessOrder ⟨[], [], 1, 1⟩ noFaults 7 ⟨0, "", .Buy, .Limit, 0, 0, 0, .Open, 0⟩ =
      (⟨[⟨1, "", .Buy, .Limit, 0, 0, 0, .Filled, 7⟩], [], 2, 1⟩,
        .ok ⟨1, "", .Buy, .Limit, 0, 0, 0, .Filled, 0⟩) :=
  ⟨Or.inl rfl, rfl⟩

/-- C1, amended.  The validation is done by the handler: for every request whose
symbol is empty, or whose quantity is not positive, or which is a limit order
with a price that is not positive, `PlaceOrder` answers 400 Bad Request without
calling `ProcessOrder`, under every fault schedule, and the database is the one
before the call: no order row, no trade, no change to a stored order. -/
theorem PlaceOrder_rejects_invalid_request (db : DB) (f : Faults) (now : Nat)
    (req : PlaceOrderRequest) (h : InvalidRequest req) :
    Handler.PlaceOrder db f now req = (db, Handler.Response.badRequest) := by
  unfold Handler.PlaceOrder
  cases hb : Handler.shouldBindJSON req with
  | none => rfl
  | some st =>
    obtain ⟨side, typ⟩ := st
    simp only
    unfold Handler.shouldBindJSON at hb
    rcases h with h | h | ⟨ht, hp⟩
    · simp [h] at hb
    · rw [if_neg, if_pos h]
      intro hc
      split at hb
      · exact absurd hb (by simp)
      · split at hb
        · split at hb
          · exact absurd hb (by simp)
          · split at hb
            · exact absurd hb (by simp)
            · rename_i hq
              exact hq (by omega)
        · exact absurd hb (by simp)
    · have hty : typ = .Limit := by
        split at hb
        · exact absurd hb (by simp)
        · split at hb
          · rename_i s t hs hty
            simp [Handler.parseType, ht] at hty
            split at hb
            · exact absurd hb (by simp)
            · split at hb
              · exact absurd hb (by simp)
              · simp at hb
                rw [← hb.2, ← hty]
          · exact absurd hb (by simp)
      rw [if_pos ⟨hty, hp⟩]

/-- C1, witness of the amended statement: a limit order request with price 0. -/
theorem PlaceOrder_rejects_invalid_request_witness :
    InvalidRequest ⟨"BTC", "buy", "limit", 0, 5⟩ ∧
    Handler.PlaceOrder ⟨[], [], 1, 1⟩ noFaults 7 ⟨"BTC", "buy", "limit", 0, 5⟩ =
      (⟨[], [], 1, 1⟩, Handler.Response.badRequest) :=
  ⟨Or.inr (Or.inr ⟨rfl, by decide⟩),
    PlaceOrder_rejects_invalid_request _ _ _ _ (Or.inr (Or.inr ⟨rfl, by decide⟩))⟩

/-! ## The shape of a run of `ProcessOrder` -/

/-- A failed `ProcessOrder` returns the database it was called on. -/
theorem ProcessOrder_error_db (db : DB) (f : Faults) (now : Nat) (order : Order) (db1 : DB)
    (e : ProcessError) (h : ProcessOrder db f now order = (db1, .error e)) : db1 = db := by
  unfold ProcessOrder at h
  simp only [OrderRepository.CreateOrder] at h
  repeat' split at h
  all_goals first
    | exact (Prod.mk.inj h).1.symm
    | exact absurd (Prod.mk.inj h).2 (by simp)

/-- A successful `ProcessOrder` is the matching loop followed by the update of the
incoming order with its final state, committed. -/
theorem ProcessOrder_ok_inv (db : DB) (f : Faults) (now : Nat) (order : Order) (db1 : DB)
    (order1 : Order) (h : ProcessOrder db f now order = (db1, .ok order1)) :
    ∃ k tx o2, matchingPass db f now order = .ok (k, tx, o2) ∧
      db1 = OrderRepository.UpdateOrderStatus tx o2.ID (finalState o2).1 (finalState o2).2 ∧
      order1 = { o2 with RemainingQuantity := (finalState o2).2, Status := (finalState o2).1 } := by
  unfold ProcessOrder at h
  simp only [OrderRepository.CreateOrder] at h
  split at h
  · exact absurd (Prod.mk.inj h).2 (by simp)
  split at h
  · exact absurd (Prod.mk.inj h).2 (by simp)
  split at h
  · exact absurd (Prod.mk.inj h).2 (by simp)
  split at h
  · exact absurd (Prod.mk.inj h).2 (by simp)
  rename_i k tx o2 hloop
  refine ⟨k, tx, o2, ?_, ?_⟩
  · simpa [matchingPass, loopStart, admitted, OrderRepository.CreateOrder] using hloop
  · split at h
    · exact absurd (Prod.mk.inj h).2 (by simp)
    split at h
    · exact absurd (Prod.mk.inj h).2 (by simp)
    obtain ⟨h1, h2⟩ := Prod.mk.inj h
    exact ⟨h1.symm, (Except.ok.inj h2).symm⟩

/-! ## The matching loop -/

/-- The loop on an empty list of matching orders. -/
theorem processMatches_nil (f : Faults) (now k : Nat) (tx : DB) (order : Order) :
    processMatches f now k tx order [] = .ok (k, tx, order) := rfl

/-- The loop stops when the incoming order has nothing left. -/
theorem processMatches_break (f : Faults) (now k : Nat) (tx : DB) (order m : Order)
    (rest : List Order) (h : order.RemainingQuantity ≤ 0) :
    processMatches f now k tx order (m :: rest) = .ok (k, tx, order) := by
  simp [processMatches, h]

/-- The loop skips a matching order that fails `canMatch`. -/
theorem processMatches_skip (f : Faults) (now k : Nat) (tx : DB) (order m : Order)
    (rest : List Order) (h : 0 < order.RemainingQuantity) (hc : canMatch order m = false) :
    processMatches f now k tx order (m :: rest) = processMatches f now k tx order rest := by
  simp [processMatches, not_le.mpr h, hc]

/-- The loop trades with a matching order that passes `canMatch`, when both writes succeed. -/
theorem processMatches_trade (f : Faults) (now k : Nat) (tx : DB) (order m : Order)
    (rest : List Order) (h : 0 < order.RemainingQuantity) (hc : canMatch order m = true)
    (hf : f k = false) (hf1 : f (k + 1) = false) :
    processMatches f now k tx order (m :: rest) =
      processMatches f now (k + 2) (matchStep now tx order m).1 (matchStep now tx order m).2 rest := by
  simp [processMatches, not_le.mpr h, hc, hf, hf1, matchStep, afterTrade]

/-- A failing write inside the loop makes the loop fail. -/
theorem processMatches_fault (f : Faults) (now k : Nat) (tx : DB) (order m : Order)
    (rest : List Order) (h : 0 < order.RemainingQuantity) (hc : canMatch order m = true)
    (hf : f k = true ∨ f (k + 1) = true) :
    ∃ e, processMatches f now k tx order (m :: rest) = .error e := by
  rcases hf with hf | hf
  · exact ⟨.createTrade, by simp [processMatches, not_le.mpr h, hc, hf]⟩
  · cases hk : f k
    · exact ⟨.updateMatchedOrder, by simp [processMatches, not_le.mpr h, hc, hf, hk]⟩
    · exact ⟨.createTrade, by simp [processMatches, not_le.mpr h, hc, hk]⟩

/-- Loop invariant rule.  `Inv k tx order ms` relates the call counter, the
transaction, the incoming order and the matching orders still to be visited.
If it survives a skipped order and an executed trade (whose two writes did not
fail), it holds when the loop returns, for the orders that were left unvisited;
and these are none unless the incoming order is used up. -/
theorem processMatches_invariant_calls (f : Faults) (now : Nat)
    (Inv : Nat → DB → Order → List Order → Prop)
    (hskip : ∀ k tx order m rest, Inv k tx order (m :: rest) → 0 < order.RemainingQuantity →
      canMatch order m = false → Inv k tx order rest)
    (hstep : ∀ k tx order m rest, Inv k tx order (m :: rest) → 0 < order.RemainingQuantity →
      canMatch order m = true → f k = false → f (k + 1) = false →
      Inv (k + 2) (matchStep now tx order m).1 (matchStep now tx order m).2 rest) :
    ∀ (ms : List Order) (k : Nat) (tx : DB) (order : Order) (k1 : Nat) (tx1 : DB) (order1 : Order),
      Inv k tx order ms → processMatches f now k tx order ms = .ok (k1, tx1, order1) →
      ∃ rest, Inv k1 tx1 order1 rest ∧ (rest = [] ∨ order1.RemainingQuantity ≤ 0) := by
  intro ms
  induction ms with
  | nil =>
    intro k tx order k1 tx1 order1 hinv h
    rw [processMatches_nil] at h
    obtain ⟨h1, h2, h3⟩ := Prod.mk.inj (Except.ok.inj h) |>.imp id Prod.mk.inj
    subst h1 h2 h3
    exact ⟨[], hinv, Or.inl rfl⟩
  | cons m rest ih =>
    intro k tx order k1 tx1 order1 hinv h
    by_cases hr : order.RemainingQuantity ≤ 0
    · rw [processMatches_break f now k tx order m rest hr] at h
      obtain ⟨h1, h2, h3⟩ := Prod.mk.inj (Except.ok.inj h) |>.imp id Prod.mk.inj
      subst h1 h2 h3
      exact ⟨m :: rest, hinv, Or.inr hr⟩
    · have hpos : 0 < order.RemainingQuantity := not_le.mp hr
      cases hc : canMatch order m
      · rw [processMatches_skip f now k tx order m rest hpos hc] at h
        exact ih k tx order k1 tx1 order1 (hskip k tx order m rest hinv hpos hc) h
      · cases hf : f k
        · cases hf1 : f (k + 1)
          · rw [processMatches_trade f now k tx order m rest hpos hc hf hf1] at h
            exact ih _ _ _ k1 tx1 order1 (hstep k tx order m rest hinv hpos hc hf hf1) h
          · obtain ⟨e, he⟩ := processMatches_fault f now k tx order m rest hpos hc (Or.inr hf1)
            rw [he] at h
            exact absurd h (by simp)
        · obtain ⟨e, he⟩ := processMatches_fault f now k tx order m rest hpos hc (Or.inl hf)
          rw [he] at h
          exact absurd h (by simp)

/-- Loop invariant rule for invariants that do not mention the call counter. -/
theorem processMatches_invariant (f : Faults) (now : Nat) (Inv : DB → Order → List Order → Prop)
    (hskip : ∀ tx order m rest, Inv tx order (m :: rest) → 0 < order.RemainingQuantity →
      canMatch order m = false → Inv tx order rest)
    (hstep : ∀ tx order m rest, Inv tx order (m :: rest) → 0 < order.RemainingQuantity →
      canMatch order m = true → Inv (matchStep now tx order m).1 (matchStep now tx order m).2 rest)
    (ms : List Order) (k : Nat) (tx : DB) (order : Order) (k1 : Nat) (tx1 : DB) (order1 : Order)
    (hinv : Inv tx order ms) (h : processMatches f now k tx order ms = .ok (k1, tx1, order1)) :
    ∃ rest, Inv tx1 order1 rest ∧ (rest = [] ∨ order1.RemainingQuantity ≤ 0) :=
  processMatches_invariant_calls f now (fun _ tx order ms => Inv tx order ms)
    (fun _ tx order m rest => hskip tx order m rest)
    (fun _ tx order m rest hi hpos hc _ _ => hstep tx order m rest hi hpos hc)
    ms k tx order k1 tx1 order1 hinv h

/-- The ids of the order rows are not touched by `UpdateOrderStatus`. -/
theorem UpdateOrderStatus_ids (db : DB) (id : Nat) (st : OrderStatus) (q : Int) :
    (OrderRepository.UpdateOrderStatus db id st q).orders.map (fun o => o.ID) =
      db.orders.map (fun o => o.ID) := by
  simp only [OrderRepository.UpdateOrderStatus, List.map_map]
  apply List.map_congr_left
  intro o _
  by_cases h : o.ID = id <;> simp [h]

/-- One iteration changes only the remaining quantity of the incoming order, and
neither the ids of the order rows nor the order counter. -/
theorem matchStep_frame (now : Nat) (tx : DB) (order m : Order) :
    (matchStep now tx order m).2 =
        { order with RemainingQuantity := (matchStep now tx order m).2.RemainingQuantity } ∧
      (matchStep now tx order m).1.orders.map (fun o => o.ID) = tx.orders.map (fun o => o.ID) ∧
      (matchStep now tx order m).1.nextOrderID = tx.nextOrderID := by
  refine ⟨rfl, ?_, rfl⟩
  simp only [matchStep]
  rw [UpdateOrderStatus_ids]
  rfl

/-- The loop changes only the remaining quantity of the incoming order, and neither
the ids of the order rows nor the order counter. -/
theorem processMatches_frame (f : Faults) (now : Nat) (ms : List Order) (k : Nat) (tx : DB)
    (order : Order) (k1 : Nat) (tx1 : DB) (order1 : Order)
    (h : processMatches f now k tx order ms = .ok (k1, tx1, order1)) :
    order1 = { order with RemainingQuantity := order1.RemainingQuantity } ∧
      tx1.orders.map (fun o => o.ID) = tx.orders.map (fun o => o.ID) ∧
      tx1.nextOrderID = tx.nextOrderID := by
  obtain ⟨_, hinv, -⟩ := processMatches_invariant f now
    (fun tx2 order2 _ =>
      order2 = { order with RemainingQuantity := order2.RemainingQuantity } ∧
      tx2.orders.map (fun o => o.ID) = tx.orders.map (fun o => o.ID) ∧
      tx2.nextOrderID = tx.nextOrderID)
    (fun _ _ _ _ hi _ _ => hi)
    (fun tx2 order2 m _ hi _ _ => by
      obtain ⟨h1, h2, h3⟩ := hi
      obtain ⟨g1, g2, g3⟩ := matchStep_frame now tx2 order2 m
      refine ⟨?_, g2.trans h2, g3.trans h3⟩
      rw [g1, h1])
    ms k tx order k1 tx1 order1 ⟨rfl, rfl, rfl⟩ h
  exact hinv

/-- The row of the incoming order is in the transaction when the loop starts. -/
theorem loopStart_row (db : DB) (now : Nat) (order : Order) :
    (loopStart db now order).2.ID ∈ (loopStart db now order).1.orders.map (fun o => o.ID) := by
  simp [loopStart, OrderRepository.CreateOrder]

/-- What `UpdateOrderStatus` leaves in a row with the updated id, and in the others. -/
theorem UpdateOrderStatus_mem (db : DB) (id : Nat) (st : OrderStatus) (q : Int) (row : Order)
    (h : row ∈ (OrderRepository.UpdateOrderStatus db id st q).orders) :
    ∃ old ∈ db.orders, old.ID = row.ID ∧
      ((old.ID = id ∧ row = { old with Status := st, RemainingQuantity := q }) ∨
        (old.ID ≠ id ∧ row = old)) := by
  simp only [OrderRepository.UpdateOrderStatus, List.mem_map] at h
  obtain ⟨old, hold, rfl⟩ := h
  refine ⟨old, hold, ?_⟩
  by_cases hid : old.ID = id
  · simp [hid]
  · simp [hid]

/-! ## The final state of the incoming order (C5) -/

/-- The final state of an incoming order that the loop used up. -/
theorem finalState_filled (o : Order) (h : o.RemainingQuantity = 0) :
    finalState o = (.Filled, 0) := by
  simp [finalState, h]

/-- The final state of a market order with a rest. -/
theorem finalState_market (o : Order) (hm : o.Typ = .Market) (h : o.RemainingQuantity ≠ 0) :
    finalState o = (.Canceled, 0) := by
  unfold finalState
  rw [if_neg h]
  by_cases hlt : o.RemainingQuantity < o.InitialQuantity
  · rw [if_pos ⟨hm, hlt⟩]
  · rw [if_neg (fun hc => hlt hc.2), if_pos hm]

/-- The final state of a limit order with a rest. -/
theorem finalState_limit (o : Order) (hl : o.Typ = .Limit) (h : o.RemainingQuantity ≠ 0) :
    finalState o = (.Open, o.RemainingQuantity) := by
  simp [finalState, h, hl]

/-- C5.  When `ProcessOrder` succeeds, the matching loop has returned, and the state
of the incoming order follows from the remaining quantity the loop left: Filled
when it is 0; Canceled with remaining quantity 0 for a market order with a
positive rest; Open with the rest kept for a limit order with a positive rest.
A market order is never Open.  The returned order and its stored row agree. -/
theorem ProcessOrder_final_state (db : DB) (f : Faults) (now : Nat) (order : Order) (db1 : DB)
    (order1 : Order) (h : ProcessOrder db f now order = (db1, .ok order1)) :
    ∃ k tx o2, matchingPass db f now order = .ok (k, tx, o2) ∧
      (o2.RemainingQuantity = 0 →
        order1.Status = .Filled ∧ order1.RemainingQuantity = 0) ∧
      (order.Typ = .Market → 0 < o2.RemainingQuantity →
        order1.Status = .Canceled ∧ order1.RemainingQuantity = 0) ∧
      (order.Typ = .Limit → 0 < o2.RemainingQuantity →
        order1.Status = .Open ∧ order1.RemainingQuantity = o2.RemainingQuantity) ∧
      (order.Typ = .Market → order1.Status ≠ .Open) ∧
      (∃ row ∈ db1.orders, row.ID = order1.ID) ∧
      (∀ row ∈ db1.orders, row.ID = order1.ID →
        row.Status = order1.Status ∧ row.RemainingQuantity = order1.RemainingQuantity) := by
  obtain ⟨k, tx, o2, hpass, hdb, hord⟩ := ProcessOrder_ok_inv db f now order db1 order1 h
  obtain ⟨ho2, hids, -⟩ := processMatches_frame f now _ _ _ _ _ _ _ hpass
  have htyp : o2.Typ = order.Typ := by rw [ho2]; rfl
  have hid : o2.ID = (loopStart db now order).2.ID := by rw [ho2]
  refine ⟨k, tx, o2, hpass, ?_, ?_, ?_, ?_, ?_, ?_⟩
  · intro h0
    subst hord
    simp [finalState_filled o2 h0]
  · intro hm hpos
    subst hord
    simp [finalState_market o2 (htyp.trans hm) (by omega)]
  · intro hl hpos
    subst hord
    simp [finalState_limit o2 (htyp.trans hl) (by omega)]
  · intro hm
    subst hord
    by_cases h0 : o2.RemainingQuantity = 0
    · simp [finalState_filled o2 h0]
    · simp [finalState_market o2 (htyp.trans hm) h0]
  · have hrow := loopStart_row db now order
    rw [← hids, ← hid, List.mem_map] at hrow
    obtain ⟨r, hr, hrid⟩ := hrow
    subst hdb hord
    refine ⟨{ r with Status := (finalState o2).1, RemainingQuantity := (finalState o2).2 }, ?_, hrid⟩
    simp only [OrderRepository.UpdateOrderStatus, List.mem_map]
    exact ⟨r, hr, by simp [hrid]⟩
  · intro row hrow hrid
    subst hdb hord
    obtain ⟨old, -, hoid, hcase⟩ := UpdateOrderStatus_mem _ _ _ _ row hrow
    rcases hcase with ⟨-, rfl⟩ | ⟨hne, rfl⟩
    · exact ⟨rfl, rfl⟩
    · exact absurd hrid hne

/-- C5, witness: a market sell order for 5 on an empty book ends Canceled with
remaining quantity 0 (scenario D). -/
theorem ProcessOrder_final_state_witness :
    ProcessOrder ⟨[], [], 1, 1⟩ noFaults 7 ⟨0, "X", .Sell, .Market, 0, 5, 0, .Open, 0⟩ =
        (⟨[⟨1, "X", .Sell, .Market, 0, 5, 0, .Canceled, 7⟩], [], 2, 1⟩,
          .ok ⟨1, "X", .Sell, .Market, 0, 5, 0, .Canceled, 0⟩) ∧
      ∃ k tx o2, matchingPass ⟨[], [], 1, 1⟩ noFaults 7 ⟨0, "X", .Sell, .Market, 0, 5, 0, .Open, 0⟩ =
          .ok (k, tx, o2) ∧ 0 < o2.RemainingQuantity :=
  ⟨rfl,
    (ProcessOrder_final_state ⟨[], [], 1, 1⟩ noFaults 7 ⟨0, "X", .Sell, .Market, 0, 5, 0, .Open, 0⟩
      _ _ rfl).elim
      fun k hk => hk.elim fun tx htx => htx.elim fun o2 ho2 =>
        ⟨k, tx, o2, ho2.1, by
          have h := ho2.1
          have e : matchingPass ⟨[], [], 1, 1⟩ noFaults 7 ⟨0, "X", .Sell, .Market, 0, 5, 0, .Open, 0⟩ =
              .ok (3, ⟨[⟨1, "X", .Sell, .Market, 0, 5, 5, .Open, 7⟩], [], 2, 1⟩,
                ⟨1, "X", .Sell, .Market, 0, 5, 5, .Open, 0⟩) := rfl
          rw [e] at h
          obtain ⟨-, -, h3⟩ := Prod.mk.inj (Except.ok.inj h) |>.imp id Prod.mk.inj
          rw [← h3]
          decide⟩⟩

/-! ## The trades of a pass -/

/-- The incoming order after one iteration. -/
theorem matchStep_order (now : Nat) (tx : DB) (order m : Order) :
    (matchStep now tx order m).2 = afterTrade order m := rfl

/-- The trades of one iteration: the old ones and the new trade. -/
theorem matchStep_trades (now : Nat) (tx : DB) (order m : Order) :
    (matchStep now tx order m).1.trades =
      tx.trades ++ [{ newTrade order m with ID := tx.nextTradeID, CreatedAt := now }] := rfl

/-- The executed iterations when the incoming order has nothing left. -/
theorem executed_break (order : Order) (ms : List Order) (h : order.RemainingQuantity ≤ 0) :
    executed order ms = [] := by
  cases ms with
  | nil => rfl
  | cons m rest => simp [executed, h]

/-- The executed iterations when the first matching order is skipped. -/
theorem executed_skip (order m : Order) (rest : List Order) (h : 0 < order.RemainingQuantity)
    (hc : canMatch order m = false) : executed order (m :: rest) = executed order rest := by
  simp [executed, not_le.mpr h, hc]

/-- The executed iterations when the first matching order is traded with. -/
theorem executed_trade (order m : Order) (rest : List Order) (h : 0 < order.RemainingQuantity)
    (hc : canMatch order m = true) :
    executed order (m :: rest) = (order, m) :: executed (afterTrade order m) rest := by
  simp [executed, not_le.mpr h, hc]

/-- The trades a successful loop appends to the trade table are, one for one and in
order, the trades of its executed iterations. -/
theorem processMatches_trades (f : Faults) (now : Nat) (ms : List Order) (k : Nat) (tx : DB)
    (order : Order) (k1 : Nat) (tx1 : DB) (order1 : Order)
    (h : processMatches f now k tx order ms = .ok (k1, tx1, order1)) :
    ∃ new, tx1.trades = tx.trades ++ new ∧ List.Forall₂ IsTradeOf new (executed order ms) := by
  obtain ⟨rest, ⟨new, done, h1, h2, h3⟩, hrest⟩ := processMatches_invariant f now
    (fun tx2 order2 rest => ∃ new done, tx2.trades = tx.trades ++ new ∧
      List.Forall₂ IsTradeOf new done ∧ executed order ms = done ++ executed order2 rest)
    (fun tx2 order2 m rest hi hpos hc => by
      obtain ⟨new, done, h1, h2, h3⟩ := hi
      exact ⟨new, done, h1, h2, by rw [h3, executed_skip order2 m rest hpos hc]⟩)
    (fun tx2 order2 m rest hi hpos hc => by
      obtain ⟨new, done, h1, h2, h3⟩ := hi
      refine ⟨new ++ [{ newTrade order2 m with ID := tx2.nextTradeID, CreatedAt := now }],
        done ++ [(order2, m)], ?_, ?_, ?_⟩
      · rw [matchStep_trades, h1, List.append_assoc]
      · exact List.rel_append h2 (List.Forall₂.cons rfl List.Forall₂.nil)
      · rw [h3, executed_trade order2 m rest hpos hc, matchStep_order now tx2]
        simp)
    ms k tx order k1 tx1 order1 ⟨[], [], by simp, List.Forall₂.nil, by simp⟩ h
  refine ⟨new, h1, ?_⟩
  have hnil : executed order1 rest = [] := by
    rcases hrest with hr | hr
    · rw [hr]; rfl
    · exact executed_break order1 rest hr
  rw [h3, hnil, List.append_nil]
  exact h2

/-- Related lists: every element of the left list has a partner in the right list. -/
theorem forall₂_exists_right {α β : Type} {R : α → β → Prop} {l₁ : List α} {l₂ : List β}
    (h : List.Forall₂ R l₁ l₂) : ∀ a ∈ l₁, ∃ b ∈ l₂, R a b := by
  induction h with
  | nil => intro a ha; cases ha
  | cons hab _ ih =>
    intro a ha
    rcases List.mem_cons.mp ha with rfl | ha
    · exact ⟨_, List.mem_cons_self _ _, hab⟩
    · obtain ⟨b, hb, hr⟩ := ih a ha
      exact ⟨b, List.mem_cons_of_mem _ hb, hr⟩

/-- The fields a trade row shares with the trade the loop built. -/
theorem IsTradeOf_fields (t : Trade) (p : Order × Order) (h : IsTradeOf t p) :
    t.BuyOrderID = (newTrade p.1 p.2).BuyOrderID ∧
      t.SellOrderID = (newTrade p.1 p.2).SellOrderID ∧
      t.Price = (newTrade p.1 p.2).Price ∧ t.Quantity = (newTrade p.1 p.2).Quantity ∧
      t.Symbol = (newTrade p.1 p.2).Symbol := by
  unfold IsTradeOf at h
  have h1 := congrArg Trade.BuyOrderID h
  have h2 := congrArg Trade.SellOrderID h
  have h3 := congrArg Trade.Price h
  have h4 := congrArg Trade.Quantity h
  have h5 := congrArg Trade.Symbol h
  exact ⟨h1, h2, h3, h4, h5⟩

/-- The eligibility test reads only type, side and price of the incoming order. -/
theorem canMatch_afterTrade (order m r : Order) :
    canMatch (afterTrade order m) r = canMatch order r := rfl

/-- Every executed iteration is with one of the matching orders, which passes
`canMatch`, and with the incoming order changed in its remaining quantity only,
which is positive. -/
theorem executed_mem (ms : List Order) : ∀ (order : Order) (p : Order × Order),
    p ∈ executed order ms →
      p.2 ∈ ms ∧ canMatch order p.2 = true ∧ 0 < p.1.RemainingQuantity ∧
        p.1 = { order with RemainingQuantity := p.1.RemainingQuantity } := by
  induction ms with
  | nil => intro order p hp; cases hp
  | cons m rest ih =>
    intro order p hp
    by_cases hr : order.RemainingQuantity ≤ 0
    · rw [executed_break order _ hr] at hp; cases hp
    · have hpos : 0 < order.RemainingQuantity := not_le.mp hr
      cases hc : canMatch order m
      · rw [executed_skip order m rest hpos hc] at hp
        obtain ⟨h1, h2⟩ := ih order p hp
        exact ⟨List.mem_cons_of_mem _ h1, h2⟩
      · rw [executed_trade order m rest hpos hc] at hp
        rcases List.mem_cons.mp hp with rfl | hp
        · exact ⟨List.mem_cons_self _ _, hc, hpos, rfl⟩
        · obtain ⟨h1, h2, h3, h4⟩ := ih (afterTrade order m) p hp
          refine ⟨List.mem_cons_of_mem _ h1, ?_, h3, ?_⟩
          · rw [← canMatch_afterTrade order m]; exact h2
          · rw [h4]; rfl

/-- The rows `getMatchingOrders` returns are the candidates among the order rows. -/
theorem getMatchingOrders_mem (tx : DB) (symbol : String) (side : OrderSide) (m : Order) :
    m ∈ getMatchingOrders tx symbol side ↔ m ∈ tx.orders ∧ IsCandidate symbol side m := by
  unfold getMatchingOrders IsCandidate
  cases side
  · rw [if_pos rfl, (List.perm_insertionSort _ _).mem_iff, List.mem_filter]
    cases hs : m.Side <;> simp [and_assoc]
  · rw [if_neg (by decide), (List.perm_insertionSort _ _).mem_iff, List.mem_filter]
    cases hs : m.Side <;> simp [and_assoc]

/-- The transaction at the start of the loop: the old rows and the row of the
incoming order, which has the next id. -/
theorem loopStart_eq (db : DB) (now : Nat) (order : Order) :
    (loopStart db now order).1.orders =
        db.orders ++ [{ admitted order with ID := db.nextOrderID, CreatedAt := now }] ∧
      (loopStart db now order).1.trades = db.trades ∧
      (loopStart db now order).2 = { admitted order with ID := db.nextOrderID } :=
  ⟨rfl, rfl, rfl⟩

/-- The rows a row loop collects are rows of the query, in the order of the query. -/
theorem rowsRead_sublist {α : Type} (stop : Option Nat) (rows : List α) :
    (rowsRead stop rows).Sublist rows := by
  cases stop with
  | none => exact List.Sublist.refl rows
  | some n => exact List.take_sublist n rows

/-- The rows a row loop collects are the first rows of the query. -/
theorem rowsRead_prefix {α : Type} (stop : Option Nat) (rows : List α) :
    ∃ n, rowsRead stop rows = rows.take n := by
  cases stop with
  | none => exact ⟨rows.length, (List.take_length rows).symm⟩
  | some n => exact ⟨n, rfl⟩

/-- The rows of a pass are rows of the query of `getMatchingOrders`. -/
theorem passOrders_sublist (db : DB) (f : Faults) (now : Nat) (order : Order) :
    (passOrders db f now order).Sublist
      (getMatchingOrders (loopStart db now order).1 order.Symbol order.Side) :=
  rowsRead_sublist _ _

/-- The matching orders of a pass are rows of the database before the call. -/
theorem matchingOrders_mem_db (db : DB) (f : Faults) (now : Nat) (order m : Order)
    (h : m ∈ passOrders db f now order) :
    m ∈ db.orders ∧ IsCandidate order.Symbol order.Side m := by
  replace h := (passOrders_sublist db f now order).subset h
  rw [getMatchingOrders_mem] at h
  refine ⟨?_, h.2⟩
  rw [(loopStart_eq db now order).1, List.mem_append, List.mem_singleton] at h
  rcases h.1 with hm | hm
  · exact hm
  · exact absurd (by rw [hm]; rfl) h.2.2.1

/-- The trades a successful `ProcessOrder` adds are, one for one and in order, the
trades of the executed iterations of its matching loop. -/
theorem ProcessOrder_trades (db : DB) (f : Faults) (now : Nat) (order : Order) (db1 : DB)
    (order1 : Order) (h : ProcessOrder db f now order = (db1, .ok order1)) :
    ∃ new, db1.trades = db.trades ++ new ∧
      List.Forall₂ IsTradeOf new
        (executed (loopStart db now order).2 (passOrders db f now order)) ∧
      order1.ID = db.nextOrderID := by
  obtain ⟨k, tx, o2, hpass, hdb, hord⟩ := ProcessOrder_ok_inv db f now order db1 order1 h
  obtain ⟨new, h1, h2⟩ := processMatches_trades f now _ _ _ _ _ _ _ hpass
  obtain ⟨ho2, -, -⟩ := processMatches_frame f now _ _ _ _ _ _ _ hpass
  refine ⟨new, ?_, h2, ?_⟩
  · rw [hdb]
    exact h1
  · rw [hord, ho2]
    rfl

/-! ## The trade price (C3) -/

/-- C3.  In a database whose open orders are all limit orders (market orders never
rest), every trade a successful `ProcessOrder` adds is between the incoming
order and an open order `r` of the opposite side of the symbol, and its price
is the price of `r`, whatever the type and the price of the incoming order. -/
theorem trade_price_is_resting_price (db : DB) (f : Faults) (now : Nat) (order : Order)
    (db1 : DB) (order1 : Order) (hlimit : OpenOrdersAreLimit db)
    (h : ProcessOrder db f now order = (db1, .ok order1)) :
    ∃ new, db1.trades = db.trades ++ new ∧
      ∀ t ∈ new, ∃ r ∈ db.orders, IsCandidate order.Symbol order.Side r ∧
        restingOrderID order.Side t = r.ID ∧ incomingOrderID order.Side t = order1.ID ∧
        t.Price = r.Price := by
  obtain ⟨new, h1, h2, h3⟩ := ProcessOrder_trades db f now order db1 order1 h
  refine ⟨new, h1, ?_⟩
  intro t ht
  obtain ⟨p, hp, htp⟩ := forall₂_exists_right h2 t ht
  obtain ⟨hm, -, -, hp1⟩ := executed_mem _ _ p hp
  obtain ⟨hmem, hcand⟩ := matchingOrders_mem_db db f now order p.2 hm
  have hlim : p.2.Typ = .Limit := hlimit p.2 hmem hcand.2.2
  have hside : p.1.Side = order.Side := by rw [hp1]; rfl
  have hid : p.1.ID = db.nextOrderID := by rw [hp1]; rfl
  obtain ⟨hB, hS, hP, -⟩ := IsTradeOf_fields t p htp
  refine ⟨p.2, hmem, hcand, ?_, ?_, ?_⟩
  · unfold restingOrderID
    cases hs : order.Side <;> simp [hB, hS, newTrade, hside, hs]
  · unfold incomingOrderID
    cases hs : order.Side <;> simp [hB, hS, newTrade, hside, hs, hid, h3]
  · rw [hP]
    simp [newTrade, determineTradePrice, hlim]

/-- C3, witness (scenario B): a resting ask of 5 at 100 and an incoming limit buy of
8 at 101 trade at 100. -/
theorem trade_price_is_resting_price_witness :
    OpenOrdersAreLimit ⟨[⟨1, "X", .Sell, .Limit, 100, 5, 5, .Open, 3⟩], [], 2, 1⟩ ∧
      ProcessOrder ⟨[⟨1, "X", .Sell, .Limit, 100, 5, 5, .Open, 3⟩], [], 2, 1⟩ noFaults 7
          ⟨0, "X", .Buy, .Limit, 101, 8, 0, .Open, 0⟩ =
        (⟨[⟨1, "X", .Sell, .Limit, 100, 5, 0, .Filled, 3⟩,
            ⟨2, "X", .Buy, .Limit, 101, 8, 3, .Open, 7⟩], [⟨1, "X", 2, 1, 100, 5, 7⟩], 3, 2⟩,
          .ok ⟨2, "X", .Buy, .Limit, 101, 8, 3, .Open, 0⟩) ∧
      ∃ new, [(⟨1, "X", 2, 1, 100, 5, 7⟩ : Trade)] = [] ++ new ∧
        ∀ t ∈ new, ∃ r ∈ [(⟨1, "X", .Sell, .Limit, 100, 5, 5, .Open, 3⟩ : Order)],
          IsCandidate "X" .Buy r ∧ restingOrderID .Buy t = r.ID ∧ incomingOrderID .Buy t = 2 ∧
            t.Price = r.Price :=
  ⟨by intro r hr _; rw [List.mem_singleton.mp hr], rfl,
    trade_price_is_resting_price ⟨[⟨1, "X", .Sell, .Limit, 100, 5, 5, .Open, 3⟩], [], 2, 1⟩
      noFaults 7 ⟨0, "X", .Buy, .Limit, 101, 8, 0, .Open, 0⟩ _ _
      (by intro r hr _; rw [List.mem_singleton.mp hr]) rfl⟩

/-! ## Persistence failures (C7) -/

/-- A loop that returns has made two calls per executed iteration and met no fault. -/
theorem processMatches_calls (f : Faults) (now : Nat) (ms : List Order) (k : Nat) (tx : DB)
    (order : Order) (k1 : Nat) (tx1 : DB) (order1 : Order)
    (h : processMatches f now k tx order ms = .ok (k1, tx1, order1)) :
    k1 = k + 2 * (executed order ms).length ∧ ∀ i, k ≤ i → i < k1 → f i = false := by
  obtain ⟨rest, ⟨h1, h2⟩, hrest⟩ := processMatches_invariant_calls f now
    (fun k2 _ order2 rest =>
      k2 + 2 * (executed order2 rest).length = k + 2 * (executed order ms).length ∧
      ∀ i, k ≤ i → i < k2 → f i = false)
    (fun k2 _ order2 m rest hi hpos hc => by
      dsimp only at hi ⊢
      rw [executed_skip order2 m rest hpos hc] at hi
      exact hi)
    (fun k2 tx2 order2 m rest hi hpos hc hf hf1 => by
      dsimp only at hi ⊢
      rw [executed_trade order2 m rest hpos hc, List.length_cons] at hi
      refine ⟨by rw [matchStep_order]; omega, ?_⟩
      intro i hki hi2
      by_cases h1 : i < k2
      · exact hi.2 i hki h1
      · by_cases h2 : i = k2
        · rw [h2]; exact hf
        · have h3 : i = k2 + 1 := by omega
          rw [h3]; exact hf1)
    ms k tx order k1 tx1 order1 ⟨rfl, fun i h1 h2 => absurd h1 (by omega)⟩ h
  have hnil : executed order1 rest = [] := by
    rcases hrest with hr | hr
    · rw [hr]; rfl
    · exact executed_break order1 rest hr
  rw [hnil] at h1
  simp only [List.length_nil, Nat.mul_zero, Nat.add_zero] at h1
  exact ⟨h1, h2⟩

/-- The loop returns when no write of its executed iterations fails. -/
theorem processMatches_ok (f : Faults) (now : Nat) (ms : List Order) :
    ∀ (k : Nat) (tx : DB) (order : Order),
      (∀ i, k ≤ i → i < k + 2 * (executed order ms).length → f i = false) →
      ∃ r, processMatches f now k tx order ms = .ok r := by
  induction ms with
  | nil => intro k tx order _; exact ⟨_, rfl⟩
  | cons m rest ih =>
    intro k tx order hf
    by_cases hr : order.RemainingQuantity ≤ 0
    · exact ⟨_, processMatches_break f now k tx order m rest hr⟩
    · have hpos : 0 < order.RemainingQuantity := not_le.mp hr
      cases hc : canMatch order m
      · rw [processMatches_skip f now k tx order m rest hpos hc]
        rw [executed_skip order m rest hpos hc] at hf
        exact ih k tx order hf
      · rw [executed_trade order m rest hpos hc, List.length_cons] at hf
        rw [processMatches_trade f now k tx order m rest hpos hc
          (hf k (le_refl k) (by omega)) (hf (k + 1) (by omega) (by omega))]
        apply ih
        intro i h1 h2
        rw [matchStep_order] at h2
        exact hf i (by omega) (by omega)

/-- The call of `ProcessOrder` succeeds when none of its persistence calls fails. -/
theorem ProcessOrder_ok (db : DB) (f : Faults) (now : Nat) (order : Order)
    (hf : ∀ i, i < persistenceCalls db f now order → f i = false) :
    ∃ db1 order1, ProcessOrder db f now order = (db1, .ok order1) := by
  have h0 := hf 0 (by unfold persistenceCalls; omega)
  have h1 := hf 1 (by unfold persistenceCalls; omega)
  have h2 := hf 2 (by unfold persistenceCalls; omega)
  obtain ⟨⟨k, tx, o2⟩, hloop⟩ := processMatches_ok f now
    (passOrders db f now order) 3
    (loopStart db now order).1 (loopStart db now order).2
    (fun i _ hi => hf i (by unfold persistenceCalls; omega))
  obtain ⟨hk, -⟩ := processMatches_calls f now _ _ _ _ _ _ _ hloop
  have h3 := hf k (by unfold persistenceCalls; omega)
  have h4 := hf (k + 1) (by unfold persistenceCalls; omega)
  have hloop2 : processMatches f now 3
      { orders := db.orders ++ [{ admitted order with ID := db.nextOrderID, CreatedAt := now }],
        trades := db.trades, nextOrderID := db.nextOrderID + 1, nextTradeID := db.nextTradeID }
      { admitted order with ID := db.nextOrderID }
      (rowsRead (f.stops 2) (getMatchingOrders
        { orders := db.orders ++ [{ admitted order with ID := db.nextOrderID, CreatedAt := now }],
          trades := db.trades, nextOrderID := db.nextOrderID + 1, nextTradeID := db.nextTradeID }
        order.Symbol order.Side)) = .ok (k, tx, o2) := hloop
  unfold admitted at hloop2
  unfold ProcessOrder
  simp only [OrderRepository.CreateOrder, h0, h1, h2, hloop2, h3, h4]
  exact ⟨_, _, rfl⟩

/-- Rollback on a reported failure.  If any of the persistence calls of
`ProcessOrder` returns an error (`Begin`, creating the order, the query for the
resting orders, creating a trade, updating an order, or `Commit`: the calls
numbered below `persistenceCalls`), then `ProcessOrder` returns an error and the
database is the one before the call: no new order, no trade, no change to a
stored order.  Rows that break off during the read of the resting orders are
not such a failure: the row loop of `getMatchingOrders` reports none. -/
theorem ProcessOrder_atomic (db : DB) (f : Faults) (now : Nat) (order : Order) (k : Nat)
    (hk : k < persistenceCalls db f now order) (hf : f k = true) :
    ∃ e, ProcessOrder db f now order = (db, .error e) := by
  cases hres : ProcessOrder db f now order with
  | mk db1 res =>
    cases res with
    | error e =>
      have := ProcessOrder_error_db db f now order db1 e hres
      subst this
      exact ⟨e, rfl⟩
    | ok order1 =>
      exfalso
      obtain ⟨k1, tx, o2, hpass, -, -⟩ := ProcessOrder_ok_inv db f now order db1 order1 hres
      obtain ⟨hk1, hfree⟩ := processMatches_calls f now _ _ _ _ _ _ _ hpass
      unfold ProcessOrder at hres
      simp only [OrderRepository.CreateOrder] at hres
      split at hres
      · exact absurd (Prod.mk.inj hres).2 (by simp)
      rename_i hf0
      split at hres
      · exact absurd (Prod.mk.inj hres).2 (by simp)
      rename_i hf1
      split at hres
      · exact absurd (Prod.mk.inj hres).2 (by simp)
      rename_i hf2
      split at hres
      · exact absurd (Prod.mk.inj hres).2 (by simp)
      rename_i k2 tx2 o3 hloop
      have hloop2 : matchingPass db f now order = .ok (k2, tx2, o3) := by
        simpa [matchingPass, loopStart, admitted, OrderRepository.CreateOrder] using hloop
      rw [hpass] at hloop2
      obtain ⟨hkk, -⟩ := Prod.mk.inj (Except.ok.inj hloop2)
      subst hkk
      split at hres
      · exact absurd (Prod.mk.inj hres).2 (by simp)
      rename_i hf3
      split at hres
      · exact absurd (Prod.mk.inj hres).2 (by simp)
      rename_i hf4
      unfold persistenceCalls at hk
      by_cases c0 : k = 0
      · subst c0; exact hf0 hf
      by_cases c1 : k = 1
      · subst c1; exact hf1 hf
      by_cases c2 : k = 2
      · subst c2; exact hf2 hf
      by_cases c3 : k < k1
      · have := hfree k (by omega) c3
        rw [this] at hf
        exact absurd hf (by simp)
      by_cases c4 : k = k1
      · subst c4; exact hf3 hf
      have c5 : k = k1 + 1 := by omega
      subst c5
      exact hf4 hf

/-- Rollback on a reported failure, an example: with a resting ask that the incoming
buy order trades with, an error of the update of the matched order (call 4 of
7), after the order row and the trade row were written in the transaction,
leaves the database unchanged. -/
theorem ProcessOrder_atomic_example :
    (4 < persistenceCalls ⟨[⟨1, "X", .Sell, .Limit, 100, 5, 5, .Open, 3⟩], [], 2, 1⟩
        ⟨fun i => decide (i = 4), fun _ => none⟩ 7
        ⟨0, "X", .Buy, .Limit, 101, 8, 0, .Open, 0⟩) ∧
      ∃ e, ProcessOrder ⟨[⟨1, "X", .Sell, .Limit, 100, 5, 5, .Open, 3⟩], [], 2, 1⟩
          ⟨fun i => decide (i = 4), fun _ => none⟩ 7
          ⟨0, "X", .Buy, .Limit, 101, 8, 0, .Open, 0⟩ =
        (⟨[⟨1, "X", .Sell, .Limit, 100, 5, 5, .Open, 3⟩], [], 2, 1⟩, .error e) :=
  ⟨by decide,
    ProcessOrder_atomic ⟨[⟨1, "X", .Sell, .Limit, 100, 5, 5, .Open, 3⟩], [], 2, 1⟩
      ⟨fun i => decide (i = 4), fun _ => none⟩ 7 ⟨0, "X", .Buy, .Limit, 101, 8, 0, .Open, 0⟩ 4
      (by decide) rfl⟩

/-- C7, the code at the failing input.  Two asks of 5 at 100 rest and a limit buy
order of 10 at 100 comes in; the read of the resting orders breaks off after
the first row.  The row loop of `getMatchingOrders` ends as at the end of the
rows and `rows.Err()` is not looked at, so `ProcessOrder` returns no error and
commits: the order row is stored Open with 5 left and there is one trade, with
ask 1, while ask 2 rests untouched at the price of the stored bid.  The
persistence step failed, and the state is not the state before the call.  When
the read runs to the end the same call trades with both asks. -/
theorem ProcessOrder_commits_after_broken_read :
    ProcessOrder twoAsks (brokenRead 2 1) 7 ⟨0, "X", .Buy, .Limit, 100, 10, 0, .Open, 0⟩ =
        (⟨[⟨1, "X", .Sell, .Limit, 100, 5, 0, .Filled, 1⟩,
            ⟨2, "X", .Sell, .Limit, 100, 5, 5, .Open, 2⟩,
            ⟨3, "X", .Buy, .Limit, 100, 10, 5, .Open, 7⟩],
          [⟨1, "X", 3, 1, 100, 5, 7⟩], 4, 2⟩,
          .ok ⟨3, "X", .Buy, .Limit, 100, 10, 5, .Open, 0⟩) ∧
      (ProcessOrder twoAsks (brokenRead 2 1) 7
          ⟨0, "X", .Buy, .Limit, 100, 10, 0, .Open, 0⟩).1 ≠ twoAsks ∧
      ProcessOrder twoAsks noFaults 7 ⟨0, "X", .Buy, .Limit, 100, 10, 0, .Open, 0⟩ =
        (⟨[⟨1, "X", .Sell, .Limit, 100, 5, 0, .Filled, 1⟩,
            ⟨2, "X", .Sell, .Limit, 100, 5, 0, .Filled, 2⟩,
            ⟨3, "X", .Buy, .Limit, 100, 10, 0, .Filled, 7⟩],
          [⟨1, "X", 3, 1, 100, 5, 7⟩, ⟨2, "X", 3, 2, 100, 5, 7⟩], 4, 3⟩,
          .ok ⟨3, "X", .Buy, .Limit, 100, 10, 0, .Filled, 0⟩) :=
  ⟨rfl, by decide, rfl⟩

/-! ## Cancellation (C6) -/

/-- The cancel statement leaves the tables as they are when it fails or hits no row. -/
theorem CancelOrder_error_db (db : DB) (fail : Bool) (id : Nat) (e : CancelError)
    (h : (OrderRepository.CancelOrder db fail id).2 = .error e) :
    (OrderRepository.CancelOrder db fail id).1 = db := by
  unfold OrderRepository.CancelOrder at h ⊢
  cases fail
  · simp only [Bool.false_eq_true, if_false] at h ⊢
    split at h
    · rename_i h0
      rw [if_pos h0]
      have hnone : ∀ o ∈ db.orders, (decide (o.ID = id) && decide (o.Status = .Open)) = false := by
        intro o ho
        by_contra hc
        have hmem : o ∈ db.orders.filter
            (fun o => decide (o.ID = id) && decide (o.Status = .Open)) :=
          List.mem_filter.mpr ⟨ho, by simpa using hc⟩
        rw [List.length_eq_zero.mp h0] at hmem
        cases hmem
      have hmap : db.orders.map (fun o =>
          if (decide (o.ID = id) && decide (o.Status = .Open)) = true
          then { o with Status := OrderStatus.Canceled } else o) = db.orders := by
        conv_rhs => rw [← List.map_id db.orders]
        apply List.map_congr_left
        intro o ho
        rw [hnone o ho]
        rfl
      simp only [hmap]
    · exact absurd h (by simp)
  · rfl

/-- The result of the cancel statement when it does not fail. -/
theorem CancelOrder_db (db : DB) (id : Nat) :
    (OrderRepository.CancelOrder db false id).1 =
      { db with orders := db.orders.map fun o =>
          if o.ID = id ∧ o.Status = .Open then { o with Status := .Canceled } else o } := by
  unfold OrderRepository.CancelOrder
  simp only [Bool.false_eq_true, if_false]
  have hmap : db.orders.map (fun o =>
      if (decide (o.ID = id) && decide (o.Status = .Open)) = true
      then { o with Status := OrderStatus.Canceled } else o) =
      db.orders.map (fun o =>
        if o.ID = id ∧ o.Status = .Open then { o with Status := .Canceled } else o) := by
    apply List.map_congr_left
    intro o _
    simp only [Bool.and_eq_true, decide_eq_true_eq]
  split <;> simp only [hmap]

/-- The cancel statement succeeds exactly when it does not fail and hits a row. -/
theorem CancelOrder_ok_iff (db : DB) (fail : Bool) (id : Nat) :
    (OrderRepository.CancelOrder db fail id).2 = .ok () ↔
      fail = false ∧ ∃ o ∈ db.orders, o.ID = id ∧ o.Status = .Open := by
  unfold OrderRepository.CancelOrder
  cases fail
  · simp only [Bool.false_eq_true, if_false, true_and]
    constructor
    · intro h
      split at h
      · exact absurd h (by simp)
      · rename_i h0
        obtain ⟨o, ho⟩ := List.exists_mem_of_length_pos (Nat.pos_of_ne_zero h0)
        obtain ⟨h1, h2⟩ := List.mem_filter.mp ho
        simp only [Bool.and_eq_true, decide_eq_true_eq] at h2
        exact ⟨o, h1, h2⟩
    · rintro ⟨o, h1, h2, h3⟩
      have hmem : o ∈ db.orders.filter
          (fun o => decide (o.ID = id) && decide (o.Status = .Open)) :=
        List.mem_filter.mpr ⟨h1, by simp [h2, h3]⟩
      rw [if_neg]
      intro h0
      rw [List.length_eq_zero.mp h0] at hmem
      cases hmem
  · simp

/-- The rows a depth query or a matching query reads are the same after a cancel as
after deleting the order: a filter that asks for status Open. -/
theorem filter_open_cancel (id : Nat) (p : Order → Bool)
    (hp : ∀ o : Order, p o = true → o.Status = .Open)
    (hq : ∀ o : Order, o.Status = .Open → p { o with Status := .Canceled } = false)
    (l : List Order) :
    (l.map fun o =>
        if o.ID = id ∧ o.Status = .Open then { o with Status := OrderStatus.Canceled } else o).filter p =
      (l.filter fun o => decide (o.ID ≠ id)).filter p := by
  induction l with
  | nil => rfl
  | cons o rest ih =>
    rw [List.map_cons]
    by_cases hid : o.ID = id
    · have hdrop : (List.filter (fun o => decide (o.ID ≠ id)) (o :: rest)) =
          List.filter (fun o => decide (o.ID ≠ id)) rest :=
        List.filter_cons_of_neg (by simp [hid])
      rw [hdrop, ← ih]
      by_cases hst : o.Status = .Open
      · rw [if_pos ⟨hid, hst⟩]
        exact List.filter_cons_of_neg (by simp [hq o hst])
      · have hpo : p o = false := by
          by_contra hc
          exact hst (hp o (by simpa using hc))
        rw [if_neg (fun hc => hst hc.2)]
        exact List.filter_cons_of_neg (by simp [hpo])
    · have hkeep : (List.filter (fun o => decide (o.ID ≠ id)) (o :: rest)) =
          o :: List.filter (fun o => decide (o.ID ≠ id)) rest :=
        List.filter_cons_of_pos (by simp [hid])
      rw [hkeep, if_neg (fun hc => hid hc.1), List.filter_cons, List.filter_cons, ih]

/-- The depth rows after a cancel are those of the database without the order. -/
theorem levelRows_cancel (db : DB) (id : Nat) (symbol : String) (side : OrderSide) :
    OrderBookRepository.levelRows (OrderRepository.CancelOrder db false id).1 symbol side =
      OrderBookRepository.levelRows (withoutOrder db id) symbol side := by
  rw [CancelOrder_db]
  unfold OrderBookRepository.levelRows withoutOrder
  apply filter_open_cancel
  · intro o ho
    simp only [Bool.and_eq_true, decide_eq_true_eq] at ho
    exact ho.1.2
  · intro o _
    simp

/-- The handler answers 200 exactly when the repository call succeeds, and leaves
the database the repository call leaves. -/
theorem Handler_CancelOrder_eq (db : DB) (fail : Bool) (id : Nat) :
    (Handler.CancelOrder db fail id).1 = (OrderRepository.CancelOrder db fail id).1 ∧
      ((Handler.CancelOrder db fail id).2 = Handler.Response.ok ↔
        (OrderRepository.CancelOrder db fail id).2 = .ok ()) := by
  unfold Handler.CancelOrder
  cases h : OrderRepository.CancelOrder db fail id with
  | mk db1 res =>
    cases res with
    | error e => cases e <;> simp
    | ok u => simp

/-- C6.  `CancelOrder` succeeds if and only if (the statement does not fail and) an
order with that id exists and is Open.  On success the order is Canceled and
nothing else is changed: no row with that id is Open, none is returned by
`getMatchingOrders`, and the depth snapshot is that of the database without the
order.  Otherwise (unknown id, Filled or Canceled order, failed statement) the
answer is an error and the database is left as it was. -/
theorem CancelOrder_spec (db : DB) (fail : Bool) (id : Nat) :
    ((Handler.CancelOrder db fail id).2 = Handler.Response.ok ↔
        fail = false ∧ ∃ o ∈ db.orders, o.ID = id ∧ o.Status = .Open) ∧
      ((Handler.CancelOrder db fail id).2 = Handler.Response.ok →
        (Handler.CancelOrder db fail id).1 =
            { db with orders := db.orders.map fun o =>
                if o.ID = id ∧ o.Status = .Open then { o with Status := .Canceled } else o } ∧
          (∀ o ∈ db.orders, o.ID = id → o.Status = .Open →
            { o with Status := .Canceled } ∈ (Handler.CancelOrder db fail id).1.orders) ∧
          (∀ row ∈ (Handler.CancelOrder db fail id).1.orders, row.ID = id →
            row.Status ≠ .Open) ∧
          (∀ symbol side, ∀ m ∈ getMatchingOrders (Handler.CancelOrder db fail id).1 symbol side,
            m.ID ≠ id) ∧
          (∀ g symbol, OrderBookRepository.GetOrderBook (Handler.CancelOrder db fail id).1 g symbol =
            OrderBookRepository.GetOrderBook (withoutOrder db id) g symbol)) ∧
      ((Handler.CancelOrder db fail id).2 ≠ Handler.Response.ok →
        (Handler.CancelOrder db fail id).1 = db) := by
  obtain ⟨hdb, hres⟩ := Handler_CancelOrder_eq db fail id
  refine ⟨hres.trans (CancelOrder_ok_iff db fail id), ?_, ?_⟩
  · intro hok
    obtain ⟨hfail, o, ho, hoid, host⟩ := (CancelOrder_ok_iff db fail id).mp (hres.mp hok)
    subst hfail
    rw [hdb]
    have hrows : ∀ row ∈ (OrderRepository.CancelOrder db false id).1.orders,
        row.Status = .Open → row.ID ≠ id := by
      rw [CancelOrder_db]
      intro row hrow hst hid
      simp only [List.mem_map] at hrow
      obtain ⟨old, -, rfl⟩ := hrow
      by_cases hc : old.ID = id ∧ old.Status = .Open
      · rw [if_pos hc] at hst
        cases hst
      · rw [if_neg hc] at hst hid
        exact hc ⟨hid, hst⟩
    refine ⟨CancelOrder_db db id, ?_, ?_, ?_, ?_⟩
    · intro o1 ho1 hid hst
      rw [CancelOrder_db]
      simp only [List.mem_map]
      exact ⟨o1, ho1, by rw [if_pos ⟨hid, hst⟩]⟩
    · intro row hrow hid hst
      exact hrows row hrow hst hid
    · intro symbol side m hm
      obtain ⟨hmem, hcand⟩ := (getMatchingOrders_mem _ _ _ m).mp hm
      exact hrows m hmem hcand.2.2
    · intro g symbol
      unfold OrderBookRepository.GetOrderBook OrderBookRepository.bidsQuery
        OrderBookRepository.asksQuery OrderBookRepository.priceLevels
      rw [levelRows_cancel, levelRows_cancel]
  · intro hne
    rw [hdb]
    cases hr : (OrderRepository.CancelOrder db fail id).2 with
    | error e => exact CancelOrder_error_db db fail id e hr
    | ok u => exact absurd (hres.mpr hr) hne

/-- C6, on an example (scenario E): order 1 is Filled and order 2 Open; canceling
order 1 is refused and changes nothing, canceling order 2 succeeds and empties
the depth snapshot. -/
theorem CancelOrder_spec_witness :
    Handler.CancelOrder
        ⟨[⟨1, "X", .Sell, .Limit, 100, 5, 0, .Filled, 3⟩, ⟨2, "X", .Buy, .Limit, 99, 8, 3, .Open, 7⟩],
          [], 3, 1⟩ false 1 =
      (⟨[⟨1, "X", .Sell, .Limit, 100, 5, 0, .Filled, 3⟩, ⟨2, "X", .Buy, .Limit, 99, 8, 3, .Open, 7⟩],
          [], 3, 1⟩, Handler.Response.notFound) ∧
    Handler.CancelOrder
        ⟨[⟨1, "X", .Sell, .Limit, 100, 5, 0, .Filled, 3⟩, ⟨2, "X", .Buy, .Limit, 99, 8, 3, .Open, 7⟩],
          [], 3, 1⟩ false 2 =
      (⟨[⟨1, "X", .Sell, .Limit, 100, 5, 0, .Filled, 3⟩,
          ⟨2, "X", .Buy, .Limit, 99, 8, 3, .Canceled, 7⟩], [], 3, 1⟩, Handler.Response.ok) ∧
    OrderBookRepository.GetOrderBook
        (Handler.CancelOrder
          ⟨[⟨1, "X", .Sell, .Limit, 100, 5, 0, .Filled, 3⟩,
            ⟨2, "X", .Buy, .Limit, 99, 8, 3, .Open, 7⟩], [], 3, 1⟩ false 2).1 noFaults "X" =
      OrderBookRepository.GetOrderBook
        (withoutOrder
          ⟨[⟨1, "X", .Sell, .Limit, 100, 5, 0, .Filled, 3⟩,
            ⟨2, "X", .Buy, .Limit, 99, 8, 3, .Open, 7⟩], [], 3, 1⟩ 2) noFaults "X" :=
  ⟨rfl, rfl,
    ((CancelOrder_spec
      ⟨[⟨1, "X", .Sell, .Limit, 100, 5, 0, .Filled, 3⟩, ⟨2, "X", .Buy, .Limit, 99, 8, 3, .Open, 7⟩],
        [], 3, 1⟩ false 2).2.1 rfl).2.2.2.2 noFaults "X"⟩

/-! ## Rows during the loop -/

/-- The order rows after one iteration: the rows with the id of the matching order
carry the new status and remaining quantity, the others are unchanged. -/
theorem matchStep_rows (now : Nat) (tx : DB) (order m row : Order)
    (h : row ∈ (matchStep now tx order m).1.orders) :
    ∃ old ∈ tx.orders, old.ID = row.ID ∧
      ((old.ID = m.ID ∧
          row = { old with
            Status := if m.RemainingQuantity - (newTrade order m).Quantity = 0
              then OrderStatus.Filled else OrderStatus.Open,
            RemainingQuantity := m.RemainingQuantity - (newTrade order m).Quantity }) ∨
        (old.ID ≠ m.ID ∧ row = old)) :=
  UpdateOrderStatus_mem _ _ _ _ row h

/-- Loop invariant rule for a property `P` of the transaction and the incoming
order, when the matching orders have distinct ids and are the rows of the
transaction with these ids: in the step, the rows with the id of the matching
order can be taken to be the matching order itself (no earlier iteration has
touched them). -/
theorem processMatches_rows_invariant (f : Faults) (now : Nat) (ms : List Order)
    (P : DB → Order → Prop)
    (hstep : ∀ tx order m, P tx order → 0 < order.RemainingQuantity → canMatch order m = true →
      m ∈ ms → (∀ row ∈ tx.orders, row.ID = m.ID → row = m) →
      P (matchStep now tx order m).1 (matchStep now tx order m).2)
    (k : Nat) (tx : DB) (order : Order) (k1 : Nat) (tx1 : DB) (order1 : Order)
    (hnodup : (ms.map fun o => o.ID).Nodup)
    (hsnap : ∀ m ∈ ms, ∀ row ∈ tx.orders, row.ID = m.ID → row = m)
    (hP : P tx order) (h : processMatches f now k tx order ms = .ok (k1, tx1, order1)) :
    P tx1 order1 := by
  obtain ⟨rest, hinv, -⟩ := processMatches_invariant f now
    (fun tx2 order2 rest => P tx2 order2 ∧ (∀ m ∈ rest, m ∈ ms) ∧
      (rest.map fun o => o.ID).Nodup ∧
      ∀ m ∈ rest, ∀ row ∈ tx2.orders, row.ID = m.ID → row = m)
    (fun tx2 order2 m rest hi _ _ => by
      obtain ⟨h1, h2, h3, h4⟩ := hi
      rw [List.map_cons] at h3
      exact ⟨h1, fun m1 hm1 => h2 m1 (List.mem_cons_of_mem _ hm1),
        (List.nodup_cons.mp h3).2,
        fun m1 hm1 => h4 m1 (List.mem_cons_of_mem _ hm1)⟩)
    (fun tx2 order2 m rest hi hpos hc => by
      obtain ⟨h1, h2, h3, h4⟩ := hi
      rw [List.map_cons] at h3
      have hnd := List.nodup_cons.mp h3
      refine ⟨hstep tx2 order2 m h1 hpos hc (h2 m (List.mem_cons_self _ _))
        (h4 m (List.mem_cons_self _ _)), fun m1 hm1 => h2 m1 (List.mem_cons_of_mem _ hm1),
        hnd.2, ?_⟩
      intro m1 hm1 row hrow hid
      obtain ⟨old, hold, hoid, hcase⟩ := matchStep_rows now tx2 order2 m row hrow
      have hne : m1.ID ≠ m.ID := by
        intro heq
        exact hnd.1 (List.mem_map.mpr ⟨m1, hm1, heq⟩)
      rcases hcase with ⟨ho, -⟩ | ⟨-, rfl⟩
      · exact absurd (hid.symm.trans (hoid.symm.trans ho)) hne
      · exact h4 m1 (List.mem_cons_of_mem _ hm1) row hold hid)
    ms k tx order k1 tx1 order1 ⟨hP, fun _ hm => hm, hnodup, hsnap⟩ h
  exact hinv.1

/-- In a table with distinct ids, a row is determined by its id. -/
theorem eq_of_id_eq {l : List Order} (hnd : (l.map fun o => o.ID).Nodup) {a b : Order}
    (ha : a ∈ l) (hb : b ∈ l) (h : a.ID = b.ID) : a = b :=
  List.inj_on_of_nodup_map hnd ha hb h

/-- The order table when the loop starts still has distinct ids. -/
theorem loopStart_unique (db : DB) (now : Nat) (order : Order) (h : UniqueIDs db) :
    ((loopStart db now order).1.orders.map fun o => o.ID).Nodup := by
  rw [(loopStart_eq db now order).1, List.map_append, List.nodup_append]
  refine ⟨h.1, by simp, ?_⟩
  intro a ha hb
  simp only [List.map_cons, List.map_nil, List.mem_singleton] at hb
  obtain ⟨o, ho, rfl⟩ := List.mem_map.mp ha
  have := h.2 o ho
  omega

/-- The matching orders of a pass have distinct ids and are the rows of the
transaction with these ids. -/
theorem matchingOrders_snapshot (db : DB) (f : Faults) (now : Nat) (order : Order)
    (h : UniqueIDs db) :
    ((passOrders db f now order).map fun o => o.ID).Nodup ∧
      ∀ m ∈ passOrders db f now order,
        ∀ row ∈ (loopStart db now order).1.orders, row.ID = m.ID → row = m := by
  have hu := loopStart_unique db now order h
  constructor
  · refine ((passOrders_sublist db f now order).map _).nodup ?_
    unfold getMatchingOrders
    split
    · exact ((List.perm_insertionSort _ _).map _).nodup_iff.mpr
        ((List.filter_sublist _).map _ |>.nodup hu)
    · exact ((List.perm_insertionSort _ _).map _).nodup_iff.mpr
        ((List.filter_sublist _).map _ |>.nodup hu)
  · intro m hm row hrow hid
    exact eq_of_id_eq hu hrow ((getMatchingOrders_mem _ _ _ m).mp
      ((passOrders_sublist db f now order).subset hm)).1 hid

/-! ## The book invariant (C9) -/

/-- The quantity of the trade the loop builds. -/
theorem newTrade_quantity (order m : Order) :
    (newTrade order m).Quantity =
      MatchingEngine.min order.RemainingQuantity m.RemainingQuantity := rfl

/-- A successful `ProcessOrder` keeps the primary key of the order table. -/
theorem ProcessOrder_unique (db : DB) (f : Faults) (now : Nat) (order : Order) (db1 : DB)
    (order1 : Order) (hid : UniqueIDs db) (h : ProcessOrder db f now order = (db1, .ok order1)) :
    UniqueIDs db1 ∧ db1.nextOrderID = db.nextOrderID + 1 := by
  obtain ⟨k, tx, o2, hpass, hdb, -⟩ := ProcessOrder_ok_inv db f now order db1 order1 h
  obtain ⟨-, hids, hnx⟩ := processMatches_frame f now _ _ _ _ _ _ _ hpass
  have hidmap : db1.orders.map (fun o => o.ID) =
      (loopStart db now order).1.orders.map (fun o => o.ID) := by
    rw [hdb, UpdateOrderStatus_ids, hids]
  have hnext : db1.nextOrderID = db.nextOrderID + 1 := by
    rw [hdb]
    exact hnx
  refine ⟨⟨?_, ?_⟩, hnext⟩
  · rw [hidmap]
    exact loopStart_unique db now order hid
  · intro o ho
    have hmem : o.ID ∈ db1.orders.map (fun o => o.ID) := List.mem_map.mpr ⟨o, ho, rfl⟩
    rw [hidmap, (loopStart_eq db now order).1, List.map_append, List.mem_append] at hmem
    rw [hnext]
    rcases hmem with hmem | hmem
    · obtain ⟨o0, ho0, he⟩ := List.mem_map.mp hmem
      have := hid.2 o0 ho0
      omega
    · simp only [List.map_cons, List.map_nil, List.mem_singleton] at hmem
      omega

/-- A rounded number is not negative when the number is not. -/
theorem float64_round_nonneg (x : ℚ) (h : 0 ≤ x) : 0 ≤ Float64.round x := by
  unfold Float64.round
  split
  · exact le_refl _
  · rw [if_neg (not_lt.mpr h)]
    unfold Float64.roundPos
    simp only
    split
    · positivity
    · positivity

/-- The arithmetic of a trading iteration on any two positive `float64` remaining
quantities: the trade quantity is `min` of the two, positive and not more than
either; neither remaining quantity becomes negative. -/
theorem tradeQuantities_bounds (a b : ℚ) (ha : 0 < a) (hb : 0 < b) :
    (Float64.tradeQuantities a b).tradeQuantity = Float64.min a b ∧
      0 < (Float64.tradeQuantities a b).tradeQuantity ∧
      (Float64.tradeQuantities a b).tradeQuantity ≤ a ∧
      (Float64.tradeQuantities a b).tradeQuantity ≤ b ∧
      0 ≤ (Float64.tradeQuantities a b).orderRemaining ∧
      0 ≤ (Float64.tradeQuantities a b).matchRemaining := by
  have hm : 0 < Float64.min a b ∧ Float64.min a b ≤ a ∧ Float64.min a b ≤ b := by
    unfold Float64.min
    split
    · rename_i hab
      exact ⟨ha, le_refl _, le_of_lt hab⟩
    · rename_i hab
      exact ⟨hb, not_lt.mp hab, le_refl _⟩
  refine ⟨rfl, hm.1, hm.2.1, hm.2.2, ?_, ?_⟩
  · exact float64_round_nonneg _ (sub_nonneg.mpr hm.2.1)
  · exact float64_round_nonneg _ (sub_nonneg.mpr hm.2.2)

/-- The `float64` nearest to 0.9. -/
theorem float64_nine_tenths : Float64.round (9 / 10) = 8106479329266893 / 2 ^ 53 := by
  norm_num [Float64.round, Float64.roundPos, Float64.nearestEven, Nat.log2]

/-- The `float64` nearest to 0.3. -/
theorem float64_three_tenths : Float64.round (3 / 10) = 5404319552844595 / 2 ^ 54 := by
  norm_num [Float64.round, Float64.roundPos, Float64.nearestEven, Nat.log2]

/-- In `float64`, `0.9 - 0.3` is `0.6000000000000001`: the exact difference
`10808639105689191 / 2 ^ 54` lies halfway between two `float64` values and is
rounded to the one with the even significand. -/
theorem float64_sub_rounds :
    Float64.sub (8106479329266893 / 2 ^ 53) (5404319552844595 / 2 ^ 54) =
      5404319552844596 / 2 ^ 53 := by
  norm_num [Float64.sub, Float64.round, Float64.roundPos, Float64.nearestEven, Nat.log2]

/-- The arithmetic of the trade of an incoming order of 0.9 with a resting order of
0.3: the trade quantity is 0.3, the incoming order is left with
0.6000000000000001 and the resting order with 0. -/
theorem tradeQuantities_rounds :
    Float64.tradeQuantities (Float64.round (9 / 10)) (Float64.round (3 / 10)) =
      ⟨5404319552844595 / 2 ^ 54, 5404319552844596 / 2 ^ 53, 0⟩ := by
  have hmin : Float64.min (8106479329266893 / 2 ^ 53) (5404319552844595 / 2 ^ 54) =
      5404319552844595 / 2 ^ 54 := by
    norm_num [Float64.min]
  have hzero : Float64.sub (5404319552844595 / 2 ^ 54) (5404319552844595 / 2 ^ 54) = 0 := by
    simp [Float64.sub, Float64.round]
  unfold Float64.tradeQuantities
  simp only [float64_nine_tenths, float64_three_tenths, hmin, float64_sub_rounds, hzero]

/-! ## Conservation (C4) -/

/-- The traded quantity of an order after one more trade. -/
theorem tradedQuantity_append (ts : List Trade) (t : Trade) (id : Nat) :
    tradedQuantity (ts ++ [t]) id =
      tradedQuantity ts id + if t.BuyOrderID = id ∨ t.SellOrderID = id then t.Quantity else 0 := by
  unfold tradedQuantity
  by_cases h : t.BuyOrderID = id ∨ t.SellOrderID = id
  · simp [List.filter_append, List.filter_cons, h]
  · simp [List.filter_append, List.filter_cons, h]

/-- The traded quantity of an order that no trade refers to. -/
theorem tradedQuantity_fresh (ts : List Trade) (id : Nat)
    (h : ∀ t ∈ ts, t.BuyOrderID < id ∧ t.SellOrderID < id) : tradedQuantity ts id = 0 := by
  unfold tradedQuantity
  have : ts.filter (fun t => decide (t.BuyOrderID = id ∨ t.SellOrderID = id)) = [] := by
    rw [List.filter_eq_nil_iff]
    intro t ht
    have := h t ht
    simp only [decide_eq_true_eq]
    omega
  rw [this]
  rfl

/-- The two order ids of the trade the loop builds. -/
theorem newTrade_ids (order m : Order) :
    ((newTrade order m).BuyOrderID = order.ID ∧ (newTrade order m).SellOrderID = m.ID) ∨
      ((newTrade order m).BuyOrderID = m.ID ∧ (newTrade order m).SellOrderID = order.ID) := by
  unfold newTrade
  cases order.Side <;> simp

/-- The loop keeps conservation on the rows of the other orders, and for the
incoming order between its initial quantity, what the loop left and its trades. -/
theorem processMatches_conservation (db : DB) (f : Faults) (now : Nat) (order : Order)
    (hinv : ConservationInvariant db)
    (k : Nat) (tx : DB) (o2 : Order) (h : matchingPass db f now order = .ok (k, tx, o2)) :
    (∀ row ∈ tx.orders, row.ID ≠ db.nextOrderID →
        ¬ (row.Typ = .Market ∧ row.Status = .Canceled) → Conserved tx row) ∧
      order.InitialQuantity = o2.RemainingQuantity + tradedQuantity tx.trades db.nextOrderID ∧
      o2.ID = db.nextOrderID ∧
      (∀ t ∈ tx.trades, t.BuyOrderID < db.nextOrderID + 1 ∧ t.SellOrderID < db.nextOrderID + 1) ∧
      (∀ row ∈ tx.orders, row.ID = db.nextOrderID →
        row.Typ = order.Typ ∧ row.InitialQuantity = order.InitialQuantity) := by
  obtain ⟨hid, htr, hcons⟩ := hinv
  obtain ⟨hnd, hsnap⟩ := matchingOrders_snapshot db f now order hid
  refine processMatches_rows_invariant f now _
    (fun tx2 order2 =>
      (∀ row ∈ tx2.orders, row.ID ≠ db.nextOrderID →
        ¬ (row.Typ = .Market ∧ row.Status = .Canceled) → Conserved tx2 row) ∧
      order.InitialQuantity =
        order2.RemainingQuantity + tradedQuantity tx2.trades db.nextOrderID ∧
      order2.ID = db.nextOrderID ∧
      (∀ t ∈ tx2.trades, t.BuyOrderID < db.nextOrderID + 1 ∧ t.SellOrderID < db.nextOrderID + 1) ∧
      (∀ row ∈ tx2.orders, row.ID = db.nextOrderID →
        row.Typ = order.Typ ∧ row.InitialQuantity = order.InitialQuantity))
    ?_ 3 _ _ k tx o2 hnd hsnap ?_ h
  · intro tx2 order2 m ⟨h1, h2, h3, h4, h5⟩ _ _ hm hrows
    obtain ⟨hmdb, hcand⟩ := matchingOrders_mem_db db f now order m hm
    have hmlt : m.ID < db.nextOrderID := hid.2 m hmdb
    have hmid : m.ID ≠ db.nextOrderID := Nat.ne_of_lt hmlt
    have hids := newTrade_ids order2 m
    rw [h3] at hids
    have hinvolves : ∀ i, ((newTrade order2 m).BuyOrderID = i ∨ (newTrade order2 m).SellOrderID = i) ↔
        (i = db.nextOrderID ∨ i = m.ID) := by
      intro i
      rcases hids with ⟨e1, e2⟩ | ⟨e1, e2⟩
      · rw [e1, e2]
        constructor
        · rintro (hh | hh)
          · exact Or.inl hh.symm
          · exact Or.inr hh.symm
        · rintro (hh | hh)
          · exact Or.inl hh.symm
          · exact Or.inr hh.symm
      · rw [e1, e2]
        constructor
        · rintro (hh | hh)
          · exact Or.inr hh.symm
          · exact Or.inl hh.symm
        · rintro (hh | hh)
          · exact Or.inr hh.symm
          · exact Or.inl hh.symm
    have htq : ∀ i, tradedQuantity (matchStep now tx2 order2 m).1.trades i =
        tradedQuantity tx2.trades i +
          if i = db.nextOrderID ∨ i = m.ID then (newTrade order2 m).Quantity else 0 := by
      intro i
      rw [matchStep_trades, tradedQuantity_append]
      by_cases hi : i = db.nextOrderID ∨ i = m.ID
      · rw [if_pos hi, if_pos ((hinvolves i).mpr hi)]
      · rw [if_neg hi, if_neg (fun hc => hi ((hinvolves i).mp hc))]
    refine ⟨?_, ?_, h3, ?_, ?_⟩
    · intro row hrow hne hnc
      obtain ⟨old, hold, hoid, hcase⟩ := matchStep_rows now tx2 order2 m row hrow
      unfold Conserved
      rcases hcase with ⟨ho, rfl⟩ | ⟨ho, rfl⟩
      · have hom : old = m := hrows old hold ho
        subst hom
        have hc := h1 old hold hmid (fun hc => by rw [hcand.2.2] at hc; cases hc.2)
        unfold Conserved at hc
        rw [htq, if_pos (Or.inr rfl)]
        simp only
        omega
      · have hc := h1 row hold hne hnc
        unfold Conserved at hc
        rw [htq, if_neg (fun hc => hc.elim hne ho)]
        omega
    · rw [htq, if_pos (Or.inl rfl), matchStep_order]
      simp only [afterTrade]
      omega
    · intro t ht
      rw [matchStep_trades, List.mem_append, List.mem_singleton] at ht
      rcases ht with ht | rfl
      · exact h4 t ht
      · simp only
        rcases hids with ⟨e1, e2⟩ | ⟨e1, e2⟩ <;> rw [e1, e2] <;> omega
    · intro row hrow hrid
      obtain ⟨old, hold, hoid, hcase⟩ := matchStep_rows now tx2 order2 m row hrow
      rcases hcase with ⟨ho, -⟩ | ⟨-, rfl⟩
      · exact absurd (ho.symm.trans (hoid.trans hrid)) hmid
      · exact h5 row hold hrid
  · have hfresh : tradedQuantity db.trades db.nextOrderID = 0 := tradedQuantity_fresh _ _ htr
    refine ⟨?_, ?_, rfl, ?_, ?_⟩
    · intro row hrow hne hnc
      rw [(loopStart_eq db now order).1, List.mem_append, List.mem_singleton] at hrow
      rcases hrow with hrow | rfl
      · exact hcons row hrow hnc
      · exact absurd rfl hne
    · rw [(loopStart_eq db now order).2.2, (loopStart_eq db now order).2.1, hfresh]
      simp [admitted]
    · intro t ht
      rw [(loopStart_eq db now order).2.1] at ht
      have := htr t ht
      omega
    · intro row hrow hrid
      rw [(loopStart_eq db now order).1, List.mem_append, List.mem_singleton] at hrow
      rcases hrow with hrow | rfl
      · exact absurd hrid (Nat.ne_of_lt (hid.2 row hrow))
      · exact ⟨rfl, rfl⟩

/-- Every `ProcessOrder` keeps the conservation invariant. -/
theorem ProcessOrder_conservation (db : DB) (f : Faults) (now : Nat) (order : Order)
    (hinv : ConservationInvariant db) :
    ConservationInvariant (ProcessOrder db f now order).1 := by
  cases hres : ProcessOrder db f now order with
  | mk db1 res =>
    cases res with
    | error e =>
      rw [ProcessOrder_error_db db f now order db1 e hres]
      exact hinv
    | ok order1 =>
      obtain ⟨k, tx, o2, hpass, hdb, -⟩ := ProcessOrder_ok_inv db f now order db1 order1 hres
      obtain ⟨h1, h2, h3, h4, h5⟩ := processMatches_conservation db f now order hinv k tx o2 hpass
      obtain ⟨hu, hnext⟩ := ProcessOrder_unique db f now order db1 order1 hinv.1 hres
      have htrades : db1.trades = tx.trades := by rw [hdb]; rfl
      have hotyp : o2.Typ = order.Typ := by
        rw [(processMatches_frame f now _ _ _ _ _ _ _ hpass).1]; rfl
      refine ⟨hu, ?_, ?_⟩
      · intro t ht
        simp only
        rw [hnext]
        rw [htrades] at ht
        exact h4 t ht
      · intro row hrow hnc
        simp only at hrow hnc ⊢
        unfold Conserved
        rw [htrades]
        rw [hdb] at hrow
        obtain ⟨old, hold, hoid, hcase⟩ := UpdateOrderStatus_mem _ _ _ _ row hrow
        rcases hcase with ⟨ho, rfl⟩ | ⟨ho, rfl⟩
        · obtain ⟨ht, hi⟩ := h5 old hold (ho.trans h3)
          simp only at hnc ⊢
          rw [ho, h3, hi]
          by_cases h0 : o2.RemainingQuantity = 0
          · rw [finalState_filled o2 h0]
            simp only
            omega
          · cases hty : o2.Typ
            · rw [finalState_limit o2 hty h0]
              exact h2
            · rw [finalState_market o2 hty h0] at hnc
              exact absurd ⟨ht.trans (hotyp.symm.trans hty), rfl⟩ hnc
        · exact h1 row hold (fun hc => ho (hc.trans h3.symm)) hnc

/-- Every `CancelOrder` keeps the conservation invariant. -/
theorem CancelOrder_conservation (db : DB) (fail : Bool) (id : Nat)
    (hinv : ConservationInvariant db) :
    ConservationInvariant (Handler.CancelOrder db fail id).1 := by
  rw [(Handler_CancelOrder_eq db fail id).1]
  cases fail
  · obtain ⟨hid, htr, hcons⟩ := hinv
    rw [CancelOrder_db]
    have hids : (db.orders.map fun o =>
        if o.ID = id ∧ o.Status = .Open then { o with Status := OrderStatus.Canceled } else o).map
          (fun o => o.ID) = db.orders.map (fun o => o.ID) := by
      rw [List.map_map]
      apply List.map_congr_left
      intro o _
      by_cases hc : o.ID = id ∧ o.Status = .Open <;> simp [hc]
    refine ⟨⟨(by simp only [hids]; exact hid.1), ?_⟩, htr, ?_⟩
    · intro o ho
      simp only [List.mem_map] at ho
      obtain ⟨old, hold, rfl⟩ := ho
      have := hid.2 old hold
      by_cases hc : old.ID = id ∧ old.Status = .Open
      · rw [if_pos hc]; exact this
      · rw [if_neg hc]; exact this
    · intro o ho hnc
      simp only [List.mem_map] at ho
      obtain ⟨old, hold, rfl⟩ := ho
      by_cases hc : old.ID = id ∧ old.Status = .Open
      · rw [if_pos hc] at hnc ⊢
        have hold2 := hcons old hold (fun hm => by
          rw [hc.2] at hm
          cases hm.2)
        exact hold2
      · rw [if_neg hc] at hnc ⊢
        exact hcons old hold hnc
  · exact hinv

/-- Every reachable database satisfies the conservation invariant. -/
theorem Reachable_conservation (db : DB) (h : Reachable db) : ConservationInvariant db := by
  induction h with
  | empty n m =>
    exact ⟨⟨List.nodup_nil, fun o ho => (by cases ho)⟩, fun t ht => (by cases ht),
      fun o ho => (by cases ho)⟩
  | processOrder db f now order _ ih => exact ProcessOrder_conservation db f now order ih
  | cancelOrder db fail id _ ih => exact CancelOrder_conservation db fail id ih

/-- C4, counterexamples.  Scenario D: after a market sell order for 5 on the empty
book the order row is Canceled with remaining quantity 0 and there is no trade:
initial quantity 5 is not remaining 0 plus traded 0.  And rounding: a limit
order of 0.9 that trades 0.3 with a resting order of 0.3 is left with the
`float64` difference 0.6000000000000001, and initial quantity 0.9 is not that
remaining quantity plus the traded 0.3. -/
theorem conservation_fails_for_canceled_market_order :
    (ProcessOrder ⟨[], [], 1, 1⟩ noFaults 7 ⟨0, "X", .Sell, .Market, 0, 5, 0, .Open, 0⟩).1 =
        ⟨[⟨1, "X", .Sell, .Market, 0, 5, 0, .Canceled, 7⟩], [], 2, 1⟩ ∧
      Reachable ⟨[⟨1, "X", .Sell, .Market, 0, 5, 0, .Canceled, 7⟩], [], 2, 1⟩ ∧
      ¬ Conserved ⟨[⟨1, "X", .Sell, .Market, 0, 5, 0, .Canceled, 7⟩], [], 2, 1⟩
        ⟨1, "X", .Sell, .Market, 0, 5, 0, .Canceled, 7⟩ ∧
      Float64.round (9 / 10) ≠
        (Float64.tradeQuantities (Float64.round (9 / 10)) (Float64.round (3 / 10))).orderRemaining +
          (Float64.tradeQuantities (Float64.round (9 / 10))
            (Float64.round (3 / 10))).tradeQuantity :=
  ⟨rfl,
    Reachable.processOrder ⟨[], [], 1, 1⟩ noFaults 7 ⟨0, "X", .Sell, .Market, 0, 5, 0, .Open, 0⟩
      (Reachable.empty 1 1),
    by unfold Conserved; decide,
    by rw [tradeQuantities_rounds, float64_nine_tenths]; norm_num⟩

/-- A quantity in the range stays in the range in the loop: the rows of the other
orders keep `0 ≤ remaining ≤ initial ≤ 2 ^ 53`, and the remaining quantity of the
incoming order stays between 0 and its initial quantity. -/
theorem processMatches_range (db : DB) (f : Faults) (now : Nat) (order : Order)
    (hid : UniqueIDs db) (hinv : QuantitiesInRange db) (hq : 0 < order.InitialQuantity)
    (k : Nat) (tx : DB) (o2 : Order) (h : matchingPass db f now order = .ok (k, tx, o2)) :
    (∀ row ∈ tx.orders, row.ID ≠ db.nextOrderID →
        0 ≤ row.RemainingQuantity ∧ row.RemainingQuantity ≤ row.InitialQuantity ∧
          row.InitialQuantity ≤ 2 ^ 53) ∧
      0 ≤ o2.RemainingQuantity ∧ o2.RemainingQuantity ≤ order.InitialQuantity ∧
      (∀ row ∈ tx.orders, row.ID = db.nextOrderID →
        row.InitialQuantity = order.InitialQuantity) := by
  obtain ⟨hnd, hsnap⟩ := matchingOrders_snapshot db f now order hid
  refine processMatches_rows_invariant f now _
    (fun tx2 order2 =>
      (∀ row ∈ tx2.orders, row.ID ≠ db.nextOrderID →
        0 ≤ row.RemainingQuantity ∧ row.RemainingQuantity ≤ row.InitialQuantity ∧
          row.InitialQuantity ≤ 2 ^ 53) ∧
      0 ≤ order2.RemainingQuantity ∧ order2.RemainingQuantity ≤ order.InitialQuantity ∧
      (∀ row ∈ tx2.orders, row.ID = db.nextOrderID →
        row.InitialQuantity = order.InitialQuantity))
    ?_ 3 _ _ k tx o2 hnd hsnap ?_ h
  · intro tx2 order2 m ⟨h1, h2, h3, h4⟩ hpos hc hm hrows
    obtain ⟨hmdb, -⟩ := matchingOrders_mem_db db f now order m hm
    obtain ⟨hm0, hmle, hmi⟩ := hinv m hmdb
    have hmid : m.ID ≠ db.nextOrderID := Nat.ne_of_lt (hid.2 m hmdb)
    have hmin : 0 ≤ (newTrade order2 m).Quantity ∧
        (newTrade order2 m).Quantity ≤ order2.RemainingQuantity ∧
        (newTrade order2 m).Quantity ≤ m.RemainingQuantity := by
      rw [newTrade_quantity]
      unfold MatchingEngine.min
      split <;> omega
    refine ⟨?_, ?_, ?_, ?_⟩
    · intro row hrow hne
      obtain ⟨old, hold, hoid, hcase⟩ := matchStep_rows now tx2 order2 m row hrow
      rcases hcase with ⟨ho, rfl⟩ | ⟨-, rfl⟩
      · have hom : old = m := hrows old hold ho
        subst hom
        simp only
        omega
      · exact h1 row hold hne
    · rw [matchStep_order]
      simp only [afterTrade]
      omega
    · rw [matchStep_order]
      simp only [afterTrade]
      omega
    · intro row hrow hrid
      obtain ⟨old, hold, hoid, hcase⟩ := matchStep_rows now tx2 order2 m row hrow
      rcases hcase with ⟨ho, -⟩ | ⟨-, rfl⟩
      · exact absurd (ho.symm.trans (hoid.trans hrid)) hmid
      · exact h4 row hold hrid
  · refine ⟨?_, ?_, ?_, ?_⟩
    · intro row hrow hne
      rw [(loopStart_eq db now order).1, List.mem_append, List.mem_singleton] at hrow
      rcases hrow with hrow | rfl
      · exact hinv row hrow
      · exact absurd rfl hne
    · rw [(loopStart_eq db now order).2.2]
      exact le_of_lt hq
    · rw [(loopStart_eq db now order).2.2]
      exact le_refl _
    · intro row hrow hrid
      rw [(loopStart_eq db now order).1, List.mem_append, List.mem_singleton] at hrow
      rcases hrow with hrow | rfl
      · exact absurd hrid (Nat.ne_of_lt (hid.2 row hrow))
      · rfl

/-- A call of `ProcessOrder` with a whole quantity from 1 to `2 ^ 53` keeps every
stored quantity in the range. -/
theorem ProcessOrder_range (db : DB) (f : Faults) (now : Nat) (order : Order)
    (hid : UniqueIDs db) (hinv : QuantitiesInRange db) (hq : 0 < order.InitialQuantity)
    (hq2 : order.InitialQuantity ≤ 2 ^ 53) :
    QuantitiesInRange (ProcessOrder db f now order).1 := by
  cases hres : ProcessOrder db f now order with
  | mk db1 res =>
    cases res with
    | error e =>
      rw [ProcessOrder_error_db db f now order db1 e hres]
      exact hinv
    | ok order1 =>
      obtain ⟨k, tx, o2, hpass, hdb, -⟩ := ProcessOrder_ok_inv db f now order db1 order1 hres
      obtain ⟨ho2, -, -⟩ := processMatches_frame f now _ _ _ _ _ _ _ hpass
      obtain ⟨h1, h2, h3, h4⟩ := processMatches_range db f now order hid hinv hq k tx o2 hpass
      have hoid : o2.ID = db.nextOrderID := by rw [ho2]; rfl
      intro row hrow
      simp only at hrow
      rw [hdb] at hrow
      obtain ⟨old, hold, -, hcase⟩ := UpdateOrderStatus_mem _ _ _ _ row hrow
      rcases hcase with ⟨ho, rfl⟩ | ⟨ho, rfl⟩
      · have hi := h4 old hold (ho.trans hoid)
        have hfin : (finalState o2).2 = 0 ∨ (finalState o2).2 = o2.RemainingQuantity := by
          unfold finalState
          split
          · exact Or.inr rfl
          · split
            · exact Or.inl rfl
            · split
              · exact Or.inl rfl
              · exact Or.inr rfl
        simp only
        rcases hfin with hf | hf <;> rw [hf] <;> omega
      · exact h1 row hold (fun hc => ho (hc.trans hoid.symm))

/-- A cancel, successful or not, keeps every stored quantity in the range: it
changes no quantity. -/
theorem CancelOrder_range (db : DB) (fail : Bool) (id : Nat) (hinv : QuantitiesInRange db) :
    QuantitiesInRange (Handler.CancelOrder db fail id).1 := by
  rw [(Handler_CancelOrder_eq db fail id).1]
  cases fail
  · rw [CancelOrder_db]
    intro o ho
    simp only [List.mem_map] at ho
    obtain ⟨old, hold, rfl⟩ := ho
    by_cases hc : old.ID = id ∧ old.Status = .Open
    · rw [if_pos hc]
      exact hinv old hold
    · rw [if_neg hc]
      exact hinv old hold
  · rw [CancelOrder_error_db db true id .execFailed rfl]
    exact hinv

/-- The databases reached with whole quantities are among the reachable ones. -/
theorem ReachableWhole_reachable (db : DB) (h : ReachableWhole db) : Reachable db := by
  induction h with
  | empty n m => exact Reachable.empty n m
  | processOrder db f now order _ _ _ ih => exact Reachable.processOrder db f now order ih
  | cancelOrder db fail id _ ih => exact Reachable.cancelOrder db fail id ih

/-- In the databases reached with whole quantities from 1 to `2 ^ 53` every stored
quantity is in the range. -/
theorem ReachableWhole_range (db : DB) (h : ReachableWhole db) : QuantitiesInRange db := by
  induction h with
  | empty n m => intro o ho; cases ho
  | processOrder db f now order hq hq2 hreach ih =>
    exact ProcessOrder_range db f now order
      (Reachable_conservation db (ReachableWhole_reachable db hreach)).1 ih hq hq2
  | cancelOrder db fail id _ ih => exact CancelOrder_range db fail id ih

/-- C4, amended.  After any sequence of calls of `ProcessOrder` with orders whose
quantity is a whole number from 1 to `2 ^ 53`, and of `CancelOrder`, from the
empty database, every stored order that is not a canceled market order
satisfies initial quantity = remaining quantity + the sum of the quantities of
the trades whose buy or sell order it is; and the quantities of every stored
order are in the range in which the `float64` arithmetic of the program is
exact: `0 ≤ remaining ≤ initial ≤ 2 ^ 53`. -/
theorem order_quantity_conserved (db : DB) (h : ReachableWhole db) (o : Order)
    (ho : o ∈ db.orders) :
    (¬ (o.Typ = .Market ∧ o.Status = .Canceled) →
        o.InitialQuantity = o.RemainingQuantity + tradedQuantity db.trades o.ID) ∧
      0 ≤ o.RemainingQuantity ∧ o.RemainingQuantity ≤ o.InitialQuantity ∧
      o.InitialQuantity ≤ 2 ^ 53 :=
  ⟨(Reachable_conservation db (ReachableWhole_reachable db h)).2.2 o ho,
    ReachableWhole_range db h o ho⟩

/-- C4, witness of the amended statement (scenario C): after two bids of 10 at 50 and
a market sell of 15, the second bid has initial 10 = remaining 5 + traded 5. -/
theorem order_quantity_conserved_witness :
    ReachableWhole ⟨[⟨1, "X", .Buy, .Limit, 50, 10, 0, .Filled, 10⟩,
        ⟨2, "X", .Buy, .Limit, 50, 10, 5, .Open, 11⟩, ⟨3, "X", .Sell, .Market, 0, 15, 0, .Filled, 12⟩],
        [⟨1, "X", 1, 3, 50, 10, 12⟩, ⟨2, "X", 2, 3, 50, 5, 12⟩], 4, 3⟩ ∧
      (10 : Int) = 5 + tradedQuantity [⟨1, "X", 1, 3, 50, 10, 12⟩, ⟨2, "X", 2, 3, 50, 5, 12⟩] 2 := by
  have hr : ReachableWhole ⟨[⟨1, "X", .Buy, .Limit, 50, 10, 0, .Filled, 10⟩,
      ⟨2, "X", .Buy, .Limit, 50, 10, 5, .Open, 11⟩, ⟨3, "X", .Sell, .Market, 0, 15, 0, .Filled, 12⟩],
      [⟨1, "X", 1, 3, 50, 10, 12⟩, ⟨2, "X", 2, 3, 50, 5, 12⟩], 4, 3⟩ :=
    ReachableWhole.processOrder _ noFaults 12 ⟨0, "X", .Sell, .Market, 0, 15, 0, .Open, 0⟩
      (by decide) (by decide)
      (ReachableWhole.processOrder _ noFaults 11 ⟨0, "X", .Buy, .Limit, 50, 10, 0, .Open, 0⟩
        (by decide) (by decide)
        (ReachableWhole.processOrder _ noFaults 10 ⟨0, "X", .Buy, .Limit, 50, 10, 0, .Open, 0⟩
          (by decide) (by decide) (ReachableWhole.empty 1 1)))
  exact ⟨hr, (order_quantity_conserved _ hr ⟨2, "X", .Buy, .Limit, 50, 10, 5, .Open, 11⟩
    (by simp)).1 (by simp)⟩

/-! ## Price-time priority (C2) -/

/-- The `ORDER BY` relation is total. -/
theorem queryBefore_total (side : OrderSide) (a b : Order) :
    queryBefore side a b ∨ queryBefore side b a := by
  unfold queryBefore
  split
  · unfold askBefore
    omega
  · unfold bidBefore
    omega

/-- The `ORDER BY` relation is transitive. -/
theorem queryBefore_trans (side : OrderSide) (a b c : Order) (h1 : queryBefore side a b)
    (h2 : queryBefore side b c) : queryBefore side a c := by
  unfold queryBefore at *
  split
  · rename_i hs
    rw [if_pos hs] at h1 h2
    unfold askBefore at *
    omega
  · rename_i hs
    rw [if_neg hs] at h1 h2
    unfold bidBefore at *
    omega

/-- The rows `getMatchingOrders` returns are in the order of the query. -/
theorem getMatchingOrders_sorted (tx : DB) (symbol : String) (side : OrderSide) :
    (getMatchingOrders tx symbol side).Pairwise (queryBefore side) := by
  unfold getMatchingOrders
  cases side
  · rw [if_pos rfl]
    have := List.sorted_insertionSort askBefore (tx.orders.filter fun o =>
      decide (o.Symbol = symbol) && decide (o.Side = .Sell) && decide (o.Status = .Open))
    unfold List.Sorted at this
    exact this.imp (fun {a b} hab => by simpa [queryBefore] using hab)
  · rw [if_neg (by decide)]
    have := List.sorted_insertionSort bidBefore (tx.orders.filter fun o =>
      decide (o.Symbol = symbol) && decide (o.Side = .Buy) && decide (o.Status = .Open))
    unfold List.Sorted at this
    exact this.imp (fun {a b} hab => by simpa [queryBefore] using hab)

/-- The transaction of a pass is stored in the order of the ids when the database
is: the row of the incoming order has the next id and is appended. -/
theorem loopStart_stored (db : DB) (now : Nat) (order : Order) (hid : UniqueIDs db)
    (h : StoredInOrder db) :
    (loopStart db now order).1.orders.Pairwise fun a b => a.ID < b.ID := by
  rw [(loopStart_eq db now order).1, List.pairwise_append]
  refine ⟨h, by simp, ?_⟩
  intro a ha b hb
  rw [List.mem_singleton] at hb
  subst hb
  exact hid.2 a ha

/-- A call of `ProcessOrder` keeps the table stored in the order of the ids: the
new row has the next id and stands last. -/
theorem ProcessOrder_stored (db : DB) (f : Faults) (now : Nat) (order : Order)
    (hid : UniqueIDs db) (h : StoredInOrder db) :
    StoredInOrder (ProcessOrder db f now order).1 := by
  cases hres : ProcessOrder db f now order with
  | mk db1 res =>
    cases res with
    | error e =>
      rw [ProcessOrder_error_db db f now order db1 e hres]
      exact h
    | ok order1 =>
      obtain ⟨k, tx, o2, hpass, hdb, -⟩ := ProcessOrder_ok_inv db f now order db1 order1 hres
      obtain ⟨-, hids, -⟩ := processMatches_frame f now _ _ _ _ _ _ _ hpass
      have hidmap : db1.orders.map (fun o => o.ID) =
          (loopStart db now order).1.orders.map (fun o => o.ID) := by
        rw [hdb, UpdateOrderStatus_ids, hids]
      have h2 : ((loopStart db now order).1.orders.map fun o => o.ID).Pairwise (· < ·) :=
        List.pairwise_map.mpr (loopStart_stored db now order hid h)
      rw [← hidmap] at h2
      exact List.pairwise_map.mp h2

/-- A cancel keeps the table stored in the order of the ids: it changes no id. -/
theorem CancelOrder_stored (db : DB) (fail : Bool) (id : Nat) (h : StoredInOrder db) :
    StoredInOrder (Handler.CancelOrder db fail id).1 := by
  rw [(Handler_CancelOrder_eq db fail id).1]
  cases fail
  · rw [CancelOrder_db]
    unfold StoredInOrder at h ⊢
    simp only
    rw [List.pairwise_map]
    refine h.imp ?_
    intro a b hab
    have hsame : ∀ o : Order,
        (if o.ID = id ∧ o.Status = .Open then { o with Status := OrderStatus.Canceled }
          else o).ID = o.ID := by
      intro o
      split <;> rfl
    rw [hsame a, hsame b]
    exact hab
  · rw [CancelOrder_error_db db true id .execFailed rfl]
    exact h

/-- Every reachable database is stored in the order of the ids. -/
theorem Reachable_stored (db : DB) (h : Reachable db) : StoredInOrder db := by
  induction h with
  | empty n m => exact List.Pairwise.nil
  | processOrder db f now order hreach ih =>
    exact ProcessOrder_stored db f now order (Reachable_conservation db hreach).1 ih
  | cancelOrder db fail id _ ih => exact CancelOrder_stored db fail id ih

/-- Sorting entries with distinct prices and keeping the first `n`: the result is
strictly ordered, has at most `n` entries, all from the input, and an input
entry that was cut off is behind `n` kept ones. -/
theorem sorted_take (R : OrderBookEntry → OrderBookEntry → Prop) [DecidableRel R]
    [IsTotal OrderBookEntry R] [IsTrans OrderBookEntry R]
    (S : OrderBookEntry → OrderBookEntry → Prop)
    (hS : ∀ a b, R a b → a.Price ≠ b.Price → S a b) (n : Nat) (l : List OrderBookEntry)
    (hnd : (l.map fun e => e.Price).Nodup) :
    ((l.insertionSort R).take n).Pairwise S ∧ ((l.insertionSort R).take n).length ≤ n ∧
      (∀ e ∈ (l.insertionSort R).take n, e ∈ l) ∧
      (∀ e ∈ l, e ∈ (l.insertionSort R).take n ∨
        (((l.insertionSort R).take n).length = n ∧ ∀ a ∈ (l.insertionSort R).take n, S a e)) := by
  have hperm := List.perm_insertionSort R l
  have hsorted : (l.insertionSort R).Pairwise R := List.sorted_insertionSort R l
  have hnd2 : ((l.insertionSort R).map fun e => e.Price).Nodup :=
    (hperm.map _).nodup_iff.mpr hnd
  have hne : (l.insertionSort R).Pairwise (fun a b => a.Price ≠ b.Price) :=
    List.pairwise_map.mp hnd2
  have hstrict : (l.insertionSort R).Pairwise S :=
    (hsorted.and hne).imp (fun {a b} hab => hS a b hab.1 hab.2)
  refine ⟨hstrict.sublist (List.take_sublist _ _), List.length_take_le _ _, ?_, ?_⟩
  · intro e he
    exact hperm.mem_iff.mp (List.mem_of_mem_take he)
  · intro e he
    have hmem : e ∈ (l.insertionSort R).take n ++ (l.insertionSort R).drop n := by
      rw [List.take_append_drop]
      exact hperm.mem_iff.mpr he
    rcases List.mem_append.mp hmem with h1 | h1
    · exact Or.inl h1
    · right
      constructor
      · rw [List.length_take]
        have hlen : n < (l.insertionSort R).length := by
          by_contra hc
          rw [List.drop_eq_nil_of_le (not_lt.mp hc)] at h1
          cases h1
        omega
      · intro a ha
        have hpw : ((l.insertionSort R).take n ++ (l.insertionSort R).drop n).Pairwise S := by
          rw [List.take_append_drop]
          exact hstrict
        exact (List.pairwise_append.mp hpw).2.2 a ha e h1

/-- The rows of one group of a depth query are the price level. -/
theorem levelRows_filter (db : DB) (symbol : String) (side : OrderSide) (price : Int) :
    (OrderBookRepository.levelRows db symbol side).filter (fun o => decide (o.Price = price)) =
      levelOrders db symbol side price := by
  unfold OrderBookRepository.levelRows levelOrders
  rw [List.filter_filter]
  apply List.filter_congr
  intro o _
  rw [Bool.eq_iff_iff]
  simp only [Bool.and_eq_true, decide_eq_true_eq]
  tauto

/-- The groups of a depth query have distinct prices. -/
theorem priceLevels_nodup (db : DB) (symbol : String) (side : OrderSide) :
    ((OrderBookRepository.priceLevels db symbol side).map fun e => e.Price).Nodup := by
  unfold OrderBookRepository.priceLevels
  simp only [List.map_map]
  have : ((fun e : OrderBookEntry => e.Price) ∘
      OrderBookRepository.levelEntry (OrderBookRepository.levelRows db symbol side)) = id := by
    funext p
    rfl
  rw [this, List.map_id]
  exact List.nodup_dedup _

/-- A group of a depth query is a non-empty price level, with its sum and count. -/
theorem priceLevels_mem (db : DB) (symbol : String) (side : OrderSide) (e : OrderBookEntry)
    (h : e ∈ OrderBookRepository.priceLevels db symbol side) :
    levelOrders db symbol side e.Price ≠ [] ∧
      e.Quantity = ((levelOrders db symbol side e.Price).map fun o => o.RemainingQuantity).sum ∧
      e.Orders = (levelOrders db symbol side e.Price).length := by
  unfold OrderBookRepository.priceLevels at h
  simp only [List.mem_map, List.mem_dedup] at h
  obtain ⟨p, ⟨o, ho, hop⟩, rfl⟩ := h
  have hp : (OrderBookRepository.levelEntry (OrderBookRepository.levelRows db symbol side) p).Price
      = p := rfl
  rw [hp, ← levelRows_filter]
  refine ⟨?_, rfl, rfl⟩
  intro hnil
  have : o ∈ (OrderBookRepository.levelRows db symbol side).filter
      (fun o => decide (o.Price = p)) := List.mem_filter.mpr ⟨ho, by simp [hop]⟩
  rw [hnil] at this
  cases this

/-- Every price level has its group in a depth query. -/
theorem priceLevels_complete (db : DB) (symbol : String) (side : OrderSide) (o : Order)
    (ho : o ∈ db.orders) (h1 : o.Symbol = symbol) (h2 : o.Side = side) (h3 : o.Status = .Open)
    (h4 : o.Typ = .Limit) :
    ∃ e ∈ OrderBookRepository.priceLevels db symbol side, e.Price = o.Price := by
  refine ⟨OrderBookRepository.levelEntry (OrderBookRepository.levelRows db symbol side) o.Price,
    ?_, rfl⟩
  unfold OrderBookRepository.priceLevels
  simp only [List.mem_map, List.mem_dedup]
  refine ⟨o.Price, ⟨o, ?_, rfl⟩, rfl⟩
  unfold OrderBookRepository.levelRows
  exact List.mem_filter.mpr ⟨ho, by simp [h1, h2, h3, h4]⟩

/-- One depth query returns the depth of its side, cut to 50 levels. -/
theorem depth_query (db : DB) (symbol : String) (side : OrderSide)
    (R : OrderBookEntry → OrderBookEntry → Prop) [DecidableRel R]
    [IsTotal OrderBookEntry R] [IsTrans OrderBookEntry R] (better : Int → Int → Prop)
    (hS : ∀ a b, R a b → a.Price ≠ b.Price → better a.Price b.Price) :
    IsDepthOf db symbol side better 50
      (((OrderBookRepository.priceLevels db symbol side).insertionSort R).take 50) := by
  obtain ⟨g1, g2, g3, g4⟩ := sorted_take R (fun a b => better a.Price b.Price) hS 50
    (OrderBookRepository.priceLevels db symbol side) (priceLevels_nodup db symbol side)
  refine ⟨g1, g2, fun e he => priceLevels_mem db symbol side e (g3 e he), ?_⟩
  intro o ho h1 h2 h3 h4
  obtain ⟨e, he, hp⟩ := priceLevels_complete db symbol side o ho h1 h2 h3 h4
  rcases g4 e he with h | ⟨hl, hb⟩
  · exact Or.inl ⟨e, h, hp⟩
  · right
    refine ⟨hl, fun a ha => ?_⟩
    rw [← hp]
    exact hb a ha

/-- The snapshot when both reads run to the end.  A successful `GetOrderBook`
whose two row loops reach the end of their rows returns, for the bids and for
the asks of the symbol, the depth of that side cut to the 50 best levels: one
entry per price level among the Open limit orders of the side, with the price,
the sum of the remaining quantities and the number of orders of the level; bids
by strictly descending price, asks by strictly ascending price.  Only Open limit
orders count in an entry. -/
theorem GetOrderBook_depth (db : DB) (f : Faults) (symbol : String) (book : OrderBook)
    (hbids : f.stops 0 = none) (hasks : f.stops 1 = none)
    (h : OrderBookRepository.GetOrderBook db f symbol = .ok book) :
    book.Symbol = symbol ∧
      IsDepthOf db symbol .Buy (fun p q => q < p) 50 book.Bids ∧
      IsDepthOf db symbol .Sell (fun p q => p < q) 50 book.Asks := by
  unfold OrderBookRepository.GetOrderBook at h
  split at h
  · cases h
  split at h
  · cases h
  obtain rfl := Except.ok.inj h
  rw [hbids, hasks]
  refine ⟨rfl, ?_, ?_⟩
  · exact depth_query db symbol .Buy OrderBookRepository.priceDesc (fun p q => q < p)
      (fun a b hab hne => by
        unfold OrderBookRepository.priceDesc at hab
        omega)
  · exact depth_query db symbol .Sell OrderBookRepository.priceAsc (fun p q => p < q)
      (fun a b hab hne => by
        unfold OrderBookRepository.priceAsc at hab
        omega)

/-- The snapshot of the example database when both reads run to the end: the bids
are the two levels 102 and 101, the level 101 sums two orders, and there are no
asks. -/
theorem GetOrderBook_depth_example :
    OrderBookRepository.GetOrderBook depthExample noFaults "X" =
        .ok ⟨"X", [⟨102, 1, 1⟩, ⟨101, 7, 2⟩], []⟩ ∧
      IsDepthOf depthExample "X" .Buy (fun p q => q < p) 50 [⟨102, 1, 1⟩, ⟨101, 7, 2⟩] :=
  ⟨rfl,
    (GetOrderBook_depth depthExample noFaults "X" ⟨"X", [⟨102, 1, 1⟩, ⟨101, 7, 2⟩], []⟩ rfl rfl
      rfl).2.1⟩

/-- Every successful `GetOrderBook` returns the first entries of the depth of each
side: what a read that breaks off loses are the levels behind the last row it
collected. -/
theorem GetOrderBook_prefix (db : DB) (f : Faults) (symbol : String) (book : OrderBook)
    (h : OrderBookRepository.GetOrderBook db f symbol = .ok book) :
    book.Symbol = symbol ∧
      (∃ n, book.Bids = (OrderBookRepository.bidsQuery db symbol).take n) ∧
      ∃ n, book.Asks = (OrderBookRepository.asksQuery db symbol).take n := by
  unfold OrderBookRepository.GetOrderBook at h
  split at h
  · cases h
  split at h
  · cases h
  obtain rfl := Except.ok.inj h
  exact ⟨rfl, rowsRead_prefix _ _, rowsRead_prefix _ _⟩

/-- C8, the code at the failing input.  The example database has the bid levels 102
and 101 for the symbol; the rows of the query for the bids break off after the
first row.  The row loop ends as at the end of the rows and `bidRows.Err()` is
not looked at, so `GetOrderBook` returns no error and a snapshot with the level
102 alone: the Open limit bids at 101 have no entry, and the list is not the
depth of the side.  When the read runs to the end both levels are listed. -/
theorem GetOrderBook_cut_snapshot :
    OrderBookRepository.GetOrderBook depthExample (brokenRead 0 1) "X" =
        .ok ⟨"X", [⟨102, 1, 1⟩], []⟩ ∧
      (⟨2, "X", .Buy, .Limit, 101, 8, 3, .Open, 7⟩ : Order) ∈ depthExample.orders ∧
      ¬ IsDepthOf depthExample "X" .Buy (fun p q => q < p) 50 [⟨102, 1, 1⟩] ∧
      OrderBookRepository.GetOrderBook depthExample noFaults "X" =
        .ok ⟨"X", [⟨102, 1, 1⟩, ⟨101, 7, 2⟩], []⟩ := by
  refine ⟨rfl, by simp [depthExample], ?_, rfl⟩
  intro h
  rcases h.2.2.2 ⟨2, "X", .Buy, .Limit, 101, 8, 3, .Open, 7⟩ (by simp [depthExample]) rfl rfl rfl
    rfl with ⟨e, he, hp⟩ | ⟨hl, -⟩
  · rw [List.mem_singleton] at he
    subst he
    exact absurd hp (by decide)
  · exact absurd hl (by decide)

/-! ## Market orders never rest -/

/-- Every `ProcessOrder`, with any order and under any fault schedule, leaves no market
order Open. -/
theorem ProcessOrder_open_limit (db : DB) (f : Faults) (now : Nat) (order : Order)
    (hid : UniqueIDs db) (hlimit : OpenOrdersAreLimit db) :
    OpenOrdersAreLimit (ProcessOrder db f now order).1 := by
  cases hres : ProcessOrder db f now order with
  | mk db1 res =>
    cases res with
    | error e =>
      rw [ProcessOrder_error_db db f now order db1 e hres]
      exact hlimit
    | ok order1 =>
      obtain ⟨k, tx, o2, hpass, hdb, -⟩ := ProcessOrder_ok_inv db f now order db1 order1 hres
      obtain ⟨ho2, -, -⟩ := processMatches_frame f now _ _ _ _ _ _ _ hpass
      obtain ⟨hnd, hsnap⟩ := matchingOrders_snapshot db f now order hid
      have hloop : (∀ row ∈ tx.orders, row.ID ≠ db.nextOrderID → row.Status = .Open →
          row.Typ = .Limit) ∧
          (∀ row ∈ tx.orders, row.ID = db.nextOrderID → row.Typ = order.Typ) := by
        refine processMatches_rows_invariant f now _
          (fun tx2 _ =>
            (∀ row ∈ tx2.orders, row.ID ≠ db.nextOrderID → row.Status = .Open →
              row.Typ = .Limit) ∧
            (∀ row ∈ tx2.orders, row.ID = db.nextOrderID → row.Typ = order.Typ))
          ?_ 3 _ _ k tx o2 hnd hsnap ?_ hpass
        · intro tx2 order2 m ⟨h1, h2⟩ _ _ hm hrows
          obtain ⟨hmdb, hcand⟩ := matchingOrders_mem_db db f now order m hm
          have hmid : m.ID ≠ db.nextOrderID := Nat.ne_of_lt (hid.2 m hmdb)
          constructor
          · intro row hrow hne hst
            obtain ⟨old, hold, hoid, hcase⟩ := matchStep_rows now tx2 order2 m row hrow
            rcases hcase with ⟨ho, rfl⟩ | ⟨-, rfl⟩
            · rw [hrows old hold ho]
              exact hlimit m hmdb hcand.2.2
            · exact h1 row hold hne hst
          · intro row hrow hrid
            obtain ⟨old, hold, hoid, hcase⟩ := matchStep_rows now tx2 order2 m row hrow
            rcases hcase with ⟨ho, -⟩ | ⟨-, rfl⟩
            · exact absurd (ho.symm.trans (hoid.trans hrid)) hmid
            · exact h2 row hold hrid
        · constructor
          · intro row hrow hne hst
            rw [(loopStart_eq db now order).1, List.mem_append, List.mem_singleton] at hrow
            rcases hrow with hrow | rfl
            · exact hlimit row hrow hst
            · exact absurd rfl hne
          · intro row hrow hrid
            rw [(loopStart_eq db now order).1, List.mem_append, List.mem_singleton] at hrow
            rcases hrow with hrow | rfl
            · exact absurd hrid (Nat.ne_of_lt (hid.2 row hrow))
            · rfl
      obtain ⟨h1, h2⟩ := hloop
      have hoid : o2.ID = db.nextOrderID := by rw [ho2]; rfl
      have hotyp : o2.Typ = order.Typ := by rw [ho2]; rfl
      intro row hrow hst
      simp only at hrow
      rw [hdb] at hrow
      obtain ⟨old, hold, -, hcase⟩ := UpdateOrderStatus_mem _ _ _ _ row hrow
      rcases hcase with ⟨ho, rfl⟩ | ⟨ho, rfl⟩
      · have ht := h2 old hold (ho.trans hoid)
        simp only at hst ⊢
        by_cases h0 : o2.RemainingQuantity = 0
        · rw [finalState_filled o2 h0] at hst
          cases hst
        · cases hty : o2.Typ
          · exact ht.trans (hotyp.symm.trans hty)
          · rw [finalState_market o2 hty h0] at hst
            cases hst
      · exact h1 row hold (fun hc => ho (hc.trans hoid.symm)) hst

/-- Every `CancelOrder` leaves no market order Open. -/
theorem CancelOrder_open_limit (db : DB) (fail : Bool) (id : Nat)
    (hlimit : OpenOrdersAreLimit db) :
    OpenOrdersAreLimit (Handler.CancelOrder db fail id).1 := by
  rw [(Handler_CancelOrder_eq db fail id).1]
  cases fail
  · rw [CancelOrder_db]
    intro row hrow hst
    simp only [List.mem_map] at hrow
    obtain ⟨old, hold, rfl⟩ := hrow
    by_cases hc : old.ID = id ∧ old.Status = .Open
    · rw [if_pos hc] at hst
      cases hst
    · rw [if_neg hc] at hst ⊢
      exact hlimit old hold hst
  · exact hlimit

/-- In every reachable database the ids are a primary key and every Open order is a
limit order: the two assumptions on the database that the statements on a
matching pass make. -/
theorem Reachable_open_limit (db : DB) (h : Reachable db) :
    UniqueIDs db ∧ OpenOrdersAreLimit db := by
  refine ⟨(Reachable_conservation db h).1, ?_⟩
  induction h with
  | empty n m => intro r hr; cases hr
  | processOrder db f now order hreach ih =>
    exact ProcessOrder_open_limit db f now order (Reachable_conservation db hreach).1 ih
  | cancelOrder db fail id _ ih => exact CancelOrder_open_limit db fail id ih

/-! ## The mutex of the matching engine (C10) -/

/-- An entry of a list after `set`. -/
theorem getElem?_set_cases {α : Type} (l : List α) (i j : Nat) (a b : α)
    (h : (l.set i a)[j]? = some b) : (j = i ∧ b = a) ∨ (j ≠ i ∧ l[j]? = some b) := by
  by_cases hji : i = j
  · subst hji
    left
    rw [List.getElem?_set] at h
    simp only [if_true] at h
    split at h
    · exact ⟨rfl, (Option.some.inj h).symm⟩
    · cases h
  · right
    rw [List.getElem?_set_ne hji] at h
    exact ⟨fun hc => hji hc.symm, h⟩

/-- Every move keeps the mutex invariant. -/
theorem step_mutex (s s1 : System) (i : Nat) (hinv : MutexInvariant s)
    (h : s.step i = some s1) : MutexInvariant s1 := by
  obtain ⟨h1, h2⟩ := hinv
  unfold System.step at h
  cases hg : s.goroutines[i]? with
  | none => rw [hg] at h; cases h
  | some g =>
    rw [hg] at h
    obtain ⟨call, phase⟩ := g
    cases call with
    | processOrder f now order =>
      cases phase with
      | waiting =>
        simp only at h
        split at h
        · cases h
        · rename_i hmu
          obtain rfl := Option.some.inj h
          have hnone : ∀ (j : Nat) (g : Goroutine), s.goroutines[j]? = some g →
              g.phase ≠ .locked := fun j g hj hl => hmu (h1 j g hj hl)
          constructor
          · intro _ _ _ _
            rfl
          · intro j k gj gk hj hk hlj hlk
            rcases getElem?_set_cases _ _ _ _ _ hj with ⟨rfl, -⟩ | ⟨-, hj2⟩
            · rcases getElem?_set_cases _ _ _ _ _ hk with ⟨rfl, -⟩ | ⟨-, hk2⟩
              · rfl
              · exact absurd hlk (hnone k gk hk2)
            · exact absurd hlj (hnone j gj hj2)
      | locked =>
        simp only at h
        obtain rfl := Option.some.inj h
        have hnone : ∀ (j : Nat) (g : Goroutine),
            (s.goroutines.set i ⟨.processOrder f now order, .done⟩)[j]? = some g →
            g.phase ≠ .locked := by
          intro j g hj hl
          rcases getElem?_set_cases _ _ _ _ _ hj with ⟨-, rfl⟩ | ⟨hne, hj2⟩
          · cases hl
          · exact hne (h2 j i g _ hj2 hg hl rfl)
        exact ⟨fun j g hj hl => absurd hl (hnone j g hj),
          fun j k gj gk hj _ hlj _ => absurd hlj (hnone j gj hj)⟩
      | done => cases h
    | cancelOrder fail id =>
      cases phase with
      | waiting =>
        simp only at h
        obtain rfl := Option.some.inj h
        have hold : ∀ (j : Nat) (g : Goroutine),
            (s.goroutines.set i ⟨.cancelOrder fail id, .done⟩)[j]? = some g →
            g.phase = .locked → s.goroutines[j]? = some g := by
          intro j g hj hl
          rcases getElem?_set_cases _ _ _ _ _ hj with ⟨-, rfl⟩ | ⟨-, hj2⟩
          · cases hl
          · exact hj2
        exact ⟨fun j g hj hl => h1 j g (hold j g hj hl) hl,
          fun j k gj gk hj hk hlj hlk => h2 j k gj gk (hold j gj hj hlj) (hold k gk hk hlk) hlj hlk⟩
      | locked => cases h
      | done => cases h

/-- Every state the server reaches from a start with an unlocked mutex and no
goroutine under way satisfies the mutex invariant. -/
theorem Reaches_mutex (db : DB) (calls : List Call) (s : System)
    (h : System.Reaches (System.initial db calls) s) : MutexInvariant s := by
  induction h with
  | start =>
    have hw : ∀ (j : Nat) (g : Goroutine), (System.initial db calls).goroutines[j]? = some g →
        g.phase ≠ .locked := by
      intro j g hj hl
      unfold System.initial at hj
      simp only [List.getElem?_map] at hj
      cases hc : calls[j]? with
      | none => rw [hc] at hj; cases hj
      | some c =>
        rw [hc] at hj
        obtain rfl := Option.some.inj hj
        cases hl
    exact ⟨fun j g hj hl => absurd hl (hw j g hj),
      fun j k gj gk hj _ hlj _ => absurd hlj (hw j gj hj)⟩
  | move s s1 i _ hstep ih => exact step_mutex s s1 i ih hstep

/-- C10, counterexample.  Two calls of `ProcessOrder` on different symbols, "X" and
"Y": once the first has locked the mutex, the second cannot move until the
first returns.  Calls on different symbols do not proceed independently. -/
theorem other_symbol_waits :
    Call.symbol twoSymbols.db (.processOrder noFaults 7 ⟨0, "X", .Buy, .Limit, 100, 5, 0, .Open, 0⟩)
        = some "X" ∧
      Call.symbol twoSymbols.db (.processOrder noFaults 8 ⟨0, "Y", .Buy, .Limit, 100, 5, 0, .Open, 0⟩)
        = some "Y" ∧
      twoSymbols.step 0 = some twoSymbolsLocked ∧
      twoSymbolsLocked.step 1 = none ∧
      ∃ s2, twoSymbolsLocked.step 0 = some s2 ∧ (s2.step 1).isSome = true :=
  ⟨rfl, rfl, rfl, rfl, _, rfl, rfl⟩

/-- C10, amended.  Under every schedule of any calls, no two calls of `ProcessOrder`
are between `Lock` and `Unlock` at the same time, whatever their symbols; and a
call of `ProcessOrder` can enter only when none is. -/
theorem processOrder_mutual_exclusion (db : DB) (calls : List Call) (s : System)
    (h : System.Reaches (System.initial db calls) s) :
    (∀ (j k : Nat) (gj gk : Goroutine), s.goroutines[j]? = some gj → s.goroutines[k]? = some gk →
        gj.phase = .locked → gk.phase = .locked → j = k) ∧
      (∀ (i : Nat) (s1 : System) (g : Goroutine), s.goroutines[i]? = some g →
        g.phase = .waiting → s.step i = some s1 → (∃ f now order, g.call = .processOrder f now order) →
        ∀ (j : Nat) (gj : Goroutine), s.goroutines[j]? = some gj → gj.phase ≠ .locked) := by
  obtain ⟨h1, h2⟩ := Reaches_mutex db calls s h
  refine ⟨h2, ?_⟩
  intro i s1 g hg hw hstep ⟨f, now, order, hcall⟩ j gj hj hl
  have hmu := h1 j gj hj hl
  unfold System.step at hstep
  rw [hg] at hstep
  obtain ⟨call, phase⟩ := g
  simp only at hcall hw
  subst hcall hw
  simp only [hmu, if_true] at hstep
  cases hstep

/-- C10, witness of the amended statement: in the state where the call on "X" is
between `Lock` and `Unlock`, no other goroutine is. -/
theorem processOrder_mutual_exclusion_witness :
    System.Reaches twoSymbols twoSymbolsLocked ∧
      ∀ (j k : Nat) (gj gk : Goroutine), twoSymbolsLocked.goroutines[j]? = some gj →
        twoSymbolsLocked.goroutines[k]? = some gk → gj.phase = .locked → gk.phase = .locked →
        j = k :=
  ⟨System.Reaches.move twoSymbols twoSymbolsLocked 0 System.Reaches.start rfl,
    (processOrder_mutual_exclusion _ _ twoSymbolsLocked
      (System.Reaches.move twoSymbols twoSymbolsLocked 0 System.Reaches.start rfl)).1⟩

/-- A cancel is not kept out of a pass: with a call of `ProcessOrder` on "X" between
`Lock` and `Unlock`, a call of `CancelOrder` for the resting order 1 on "X"
moves, and the order is Canceled when the pass comes to its end. -/
theorem cancel_moves_during_pass :
    passAndCancel.step 0 = some passAndCancelLocked ∧
      Call.symbol passAndCancelLocked.db (.cancelOrder false 1) = some "X" ∧
      ∃ s2, passAndCancelLocked.step 1 = some s2 ∧ s2.orderBookMu = true ∧
        s2.db.orders = [⟨1, "X", .Sell, .Limit, 100, 5, 5, .Canceled, 3⟩] :=
  ⟨rfl, rfl, _, rfl, rfl, rfl⟩

/-- What the missing exclusion allows, statement by statement: the pass inserts its
order and reads the resting order 1; the cancel statement of another request
then succeeds on order 1; the loop, which works on the rows it has read,
trades 5 with order 1 and overwrites its status with Filled. -/
theorem cancel_between_read_and_update :
    getMatchingOrders (loopStart passAndCancel.db 7 ⟨0, "X", .Buy, .Limit, 100, 5, 0, .Open, 0⟩).1
        "X" .Buy = [⟨1, "X", .Sell, .Limit, 100, 5, 5, .Open, 3⟩] ∧
      OrderRepository.CancelOrder
          (loopStart passAndCancel.db 7 ⟨0, "X", .Buy, .Limit, 100, 5, 0, .Open, 0⟩).1 false 1 =
        (⟨[⟨1, "X", .Sell, .Limit, 100, 5, 5, .Canceled, 3⟩,
            ⟨2, "X", .Buy, .Limit, 100, 5, 5, .Open, 7⟩], [], 3, 1⟩, .ok ()) ∧
      processMatches noFaults 7 3
          ⟨[⟨1, "X", .Sell, .Limit, 100, 5, 5, .Canceled, 3⟩,
            ⟨2, "X", .Buy, .Limit, 100, 5, 5, .Open, 7⟩], [], 3, 1⟩
          ⟨2, "X", .Buy, .Limit, 100, 5, 5, .Open, 0⟩
          [⟨1, "X", .Sell, .Limit, 100, 5, 5, .Open, 3⟩] =
        .ok (5, ⟨[⟨1, "X", .Sell, .Limit, 100, 5, 0, .Filled, 3⟩,
            ⟨2, "X", .Buy, .Limit, 100, 5, 5, .Open, 7⟩], [⟨1, "X", 2, 1, 100, 5, 7⟩], 3, 2⟩,
          ⟨2, "X", .Buy, .Limit, 100, 5, 0, .Open, 0⟩) :=
  ⟨rfl, rfl, rfl⟩

/-! ## The trade quantity (C11) -/

/-- The eligibility test of the specification is `canMatch`. -/
theorem eligible_eq_canMatch (incoming resting : Order) :
    eligible incoming resting = canMatch incoming resting := by
  unfold eligible canMatch
  cases hi : incoming.Typ <;> cases hr : resting.Typ <;> cases hs : incoming.Side <;> simp

/-- The package function `min` computes the minimum. -/
theorem min_eq_min (a b : Int) : MatchingEngine.min a b = Min.min a b := by
  unfold MatchingEngine.min
  rw [Int.min_def]
  split <;> split <;> omega

/-- The eligibility test is monotone along the order of the query: between limit
orders, when a resting order fails it, so does every resting order that may
stand after it. -/
theorem canMatch_false_of_before (order a b : Order) (ha : a.Typ = .Limit) (hb : b.Typ = .Limit)
    (hab : queryBefore order.Side a b) (hfail : canMatch order a = false) :
    canMatch order b = false := by
  unfold canMatch at hfail ⊢
  unfold queryBefore askBefore bidBefore askKey bidKey at hab
  rw [ha, hb] at hab
  simp only [if_neg (show ¬ OrderType.Limit = OrderType.Market by decide)] at hab
  rw [ha] at hfail
  rw [hb]
  cases hi : order.Typ
  · rw [hi] at hfail
    simp only [if_neg (show ¬ (OrderType.Limit = OrderType.Market ∨
      OrderType.Limit = OrderType.Market) by decide)] at hfail ⊢
    cases hs : order.Side
    · rw [hs] at hfail hab
      simp only [if_true, decide_eq_false_iff_not] at hfail hab ⊢
      omega
    · rw [hs] at hfail hab
      simp only [if_neg (show ¬ OrderSide.Sell = OrderSide.Buy by decide),
        decide_eq_false_iff_not] at hfail hab ⊢
      omega
  · rw [hi] at hfail
    simp at hfail

/-- The loop of `ProcessOrder` changes nothing on a list of matching orders that
all fail the eligibility test. -/
theorem processMatches_none_eligible (f : Faults) (now k : Nat) (tx : DB) (order : Order)
    (ms : List Order) (h : ∀ m ∈ ms, canMatch order m = false) :
    processMatches f now k tx order ms = .ok (k, tx, order) := by
  induction ms with
  | nil => rfl
  | cons m rest ih =>
    by_cases hr : order.RemainingQuantity ≤ 0
    · exact processMatches_break f now k tx order m rest hr
    · rw [processMatches_skip f now k tx order m rest (not_le.mp hr) (h m (List.mem_cons_self _ _))]
      exact ih (fun m1 hm1 => h m1 (List.mem_cons_of_mem _ hm1))

/-- One step of the specified loop against an eligible resting order is the step of
`processMatches`, when the resting order is a limit order. -/
theorem specifiedLoop_trade (f : Faults) (now k : Nat) (tx : DB) (order m : Order)
    (rest : List Order) (h : 0 < order.RemainingQuantity) (hc : canMatch order m = true)
    (hm : m.Typ = .Limit) (hf : f k = false) (hf1 : f (k + 1) = false) :
    specifiedLoop f now k tx order (m :: rest) =
      specifiedLoop f now (k + 2) (matchStep now tx order m).1 (matchStep now tx order m).2 rest := by
  have hprice : determineTradePrice order m = m.Price := by
    simp [determineTradePrice, hm]
  simp only [specifiedLoop, h, if_true, eligible_eq_canMatch, hc, hf, hf1, Bool.false_eq_true,
    if_false, matchStep, afterTrade, newTrade, hprice, min_eq_min]

/-- The two loops agree on a list of limit orders in the order of the query, from
every state of the incoming order, the transaction and the call counter. -/
theorem processMatches_eq_specifiedLoop (f : Faults) (now : Nat) (ms : List Order) :
    ∀ (k : Nat) (tx : DB) (order : Order), (∀ m ∈ ms, m.Typ = .Limit) →
      ms.Pairwise (queryBefore order.Side) →
      processMatches f now k tx order ms = specifiedLoop f now k tx order ms := by
  induction ms with
  | nil => intro k tx order _ _; rfl
  | cons m rest ih =>
    intro k tx order hlimit hsorted
    obtain ⟨hhead, htail⟩ := List.pairwise_cons.mp hsorted
    have hml := hlimit m (List.mem_cons_self _ _)
    have hrl : ∀ r ∈ rest, r.Typ = .Limit := fun r hr => hlimit r (List.mem_cons_of_mem _ hr)
    by_cases hr : order.RemainingQuantity ≤ 0
    · rw [processMatches_break f now k tx order m rest hr]
      simp [specifiedLoop, not_lt.mpr hr]
    · have hpos : 0 < order.RemainingQuantity := not_le.mp hr
      cases hc : canMatch order m
      · rw [processMatches_skip f now k tx order m rest hpos hc,
          processMatches_none_eligible f now k tx order rest
            (fun r hrm => canMatch_false_of_before order m r hml (hrl r hrm) (hhead r hrm) hc)]
        simp [specifiedLoop, hpos, eligible_eq_canMatch, hc]
      · cases hf : f k
        · cases hf1 : f (k + 1)
          · rw [processMatches_trade f now k tx order m rest hpos hc hf hf1,
              specifiedLoop_trade f now k tx order m rest hpos hc hml hf hf1]
            exact ih _ _ _ hrl htail
          · simp [processMatches, specifiedLoop, hpos, not_le.mpr hpos, eligible_eq_canMatch, hc,
              hf, hf1]
        · simp [processMatches, specifiedLoop, hpos, not_le.mpr hpos, eligible_eq_canMatch, hc, hf]

/-- C12.  For every incoming order and every list of resting limit orders in the
order of the book opposite to it (asks by ascending price for a buy order, bids
by descending price for a sell order, earlier arrival first within a price):
once a resting order fails `canMatch`, every later one fails it too; and so the
loop of `ProcessOrder`, which skips a failing resting order and goes on, returns
exactly what the specified loop returns, which terminates at the first failing
resting order: the same tables (trades, remaining quantities and statuses of the
resting orders), the same incoming order, the same call counter, or the same
error, from every transaction and under every fault schedule. -/
theorem skipping_equals_stopping (order : Order) (ms : List Order)
    (hlimit : ∀ m ∈ ms, m.Typ = .Limit) (hsorted : ms.Pairwise (queryBefore order.Side)) :
    (∀ (pre post : List Order) (m : Order), ms = pre ++ m :: post → canMatch order m = false →
        ∀ r ∈ post, canMatch order r = false) ∧
      ∀ (f : Faults) (now k : Nat) (tx : DB),
        processMatches f now k tx order ms = specifiedLoop f now k tx order ms := by
  constructor
  · intro pre post m hms hfail r hr
    subst hms
    have hpw := (List.pairwise_append.mp hsorted).2.1
    exact canMatch_false_of_before order m r
      (hlimit m (List.mem_append_right _ (List.mem_cons_self _ _)))
      (hlimit r (List.mem_append_right _ (List.mem_cons_of_mem _ hr)))
      ((List.pairwise_cons.mp hpw).1 r hr) hfail
  · intro f now k tx
    exact processMatches_eq_specifiedLoop f now ms k tx order hlimit hsorted

/-- C12, witness: a limit buy order of 10 at 100 against asks at 99, 101 and 102.
The ask at 101 fails `canMatch`, hence the ask at 102 does, and both loops
return the same result, the trade of 3 with the ask at 99. -/
theorem skipping_equals_stopping_witness :
    (∀ m ∈ threeAsks, m.Typ = .Limit) ∧ threeAsks.Pairwise (queryBefore .Buy) ∧
      canMatch ⟨4, "X", .Buy, .Limit, 100, 10, 10, .Open, 0⟩
        ⟨2, "X", .Sell, .Limit, 101, 5, 5, .Open, 2⟩ = false ∧
      (∀ r ∈ [(⟨3, "X", .Sell, .Limit, 102, 1, 1, .Open, 3⟩ : Order)],
        canMatch ⟨4, "X", .Buy, .Limit, 100, 10, 10, .Open, 0⟩ r = false) ∧
      processMatches noFaults 7 3 threeAsksTx ⟨4, "X", .Buy, .Limit, 100, 10, 10, .Open, 0⟩
          threeAsks =
        specifiedLoop noFaults 7 3 threeAsksTx ⟨4, "X", .Buy, .Limit, 100, 10, 10, .Open, 0⟩
          threeAsks := by
  have h1 : ∀ m ∈ threeAsks, m.Typ = .Limit := by
    simp [threeAsks]
  have h2 : threeAsks.Pairwise (queryBefore .Buy) := by
    simp [threeAsks, queryBefore, askBefore, askKey]
  obtain ⟨hmono, hloops⟩ :=
    skipping_equals_stopping ⟨4, "X", .Buy, .Limit, 100, 10, 10, .Open, 0⟩ threeAsks h1 h2
  exact ⟨h1, h2, rfl,
    hmono [⟨1, "X", .Sell, .Limit, 99, 3, 3, .Open, 1⟩]
      [⟨3, "X", .Sell, .Limit, 102, 1, 1, .Open, 3⟩] ⟨2, "X", .Sell, .Limit, 101, 5, 5, .Open, 2⟩
      rfl rfl,
    hloops noFaults 7 3 threeAsksTx⟩

/-- The matching pass of `ProcessOrder` on a database whose open orders are limit
orders is the specified loop on the rows the pass collects from the query. -/
theorem matchingPass_eq_specifiedLoop (db : DB) (f : Faults) (now : Nat) (order : Order)
    (hlimit : OpenOrdersAreLimit db) :
    matchingPass db f now order =
      specifiedLoop f now 3 (loopStart db now order).1 (loopStart db now order).2
        (passOrders db f now order) := by
  unfold matchingPass
  apply processMatches_eq_specifiedLoop
  · intro m hm
    obtain ⟨hmem, hcand⟩ := matchingOrders_mem_db db f now order m hm
    exact hlimit m hmem hcand.2.2
  · exact (getMatchingOrders_sorted (loopStart db now order).1 order.Symbol order.Side).sublist
      (passOrders_sublist db f now order)

/-- The order matters: on the same asks in the opposite order the loop of
`ProcessOrder` skips the asks at 102 and 101 and trades with the ask at 99,
while the specified loop terminates at the ask at 102 without a trade. -/
theorem skipping_differs_when_unsorted :
    (∃ tx1 o1, processMatches noFaults 7 3 threeAsksTx ⟨4, "X", .Buy, .Limit, 100, 10, 10, .Open, 0⟩
        threeAsks.reverse = .ok (5, tx1, o1) ∧ tx1.trades = [⟨1, "X", 4, 1, 99, 3, 7⟩]) ∧
      specifiedLoop noFaults 7 3 threeAsksTx ⟨4, "X", .Buy, .Limit, 100, 10, 10, .Open, 0⟩
          threeAsks.reverse =
        .ok (3, threeAsksTx, ⟨4, "X", .Buy, .Limit, 100, 10, 10, .Open, 0⟩) :=
  ⟨⟨_, _, rfl, rfl⟩, rfl⟩

end OrderMatching
